import Mathlib

/-!
A verification development for the BSONColumn streaming compressor
(`src/mongo/bson/util/bsoncolumnbuilder.cpp`).

The builder, its per-field `EncodingState`, the pure document functions
(`traverseLockStep`, `mergeObj`) and the control-byte run management are
translated directly from the source file.  Collaborators that the source
consumes but that are not part of it (the Simple-8b bit packer,
`Simple8bTypeUtil` scalar encoders, `bsoncolumn` utility predicates) are
modelled from the specification; their definitions carry doc comments
starting with `Modelled from the spec:`.

Scope notes for the shallow embedding:
* machine integers are `Nat`/`Int` with explicit wrapping where the source
  wraps;
* the `NumberDouble` encoding path (`_appendDouble`, `_tryRescalePending`)
  is floating-point arithmetic and is outside the embedding; the value
  universe therefore has no double constructor, and `_scaleIndex` stays at
  `kMemoryAsInteger`;
* field names are modelled as ASCII strings.
-/

set_option maxRecDepth 100000

namespace BCol

/-- BSON element type tags, with the numeric codes used on the wire. -/
inductive BType where
  | eoo | numberInt | numberLong | bool | date | timestamp | objectId
  | string | binData | numberDecimal | null | undefined | object | array
  | regEx | minKey | maxKey
  deriving DecidableEq, Repr

/-- Wire code of a type tag (BSONType values from the BSON spec). -/
def BType.code : BType → UInt8
  | .eoo => 0x00
  | .numberInt => 0x10
  | .numberLong => 0x12
  | .bool => 0x08
  | .date => 0x09
  | .timestamp => 0x11
  | .objectId => 0x07
  | .string => 0x02
  | .binData => 0x05
  | .numberDecimal => 0x13
  | .null => 0x0A
  | .undefined => 0x06
  | .object => 0x03
  | .array => 0x04
  | .regEx => 0x0B
  | .minKey => 0xFF
  | .maxKey => 0x7F

/-- A BSON value (field name excluded).  Strings and binaries carry raw
bytes; an ObjectId carries its twelve raw bytes; objects and arrays carry
their field lists.  `NumberDouble` and `Code`-family types are outside the
embedding scope. -/
inductive BVal where
  | i32 (v : Int)
  | i64 (v : Int)
  | bool (b : Bool)
  | date (ms : Int)
  | ts (v : Nat)
  | oid (bytes : List UInt8)
  | str (bytes : List UInt8)
  | bin (sub : UInt8) (bytes : List UInt8)
  | dec (lo hi : Nat)
  | null
  | undef
  | obj (fields : List (String × BVal))
  | arr (fields : List (String × BVal))
  | regex (pat opts : List UInt8)
  | minKey
  | maxKey
  | eoo

/-- The type tag of a value. -/
def BVal.btype : BVal → BType
  | .i32 _ => .numberInt
  | .i64 _ => .numberLong
  | .bool _ => .bool
  | .date _ => .date
  | .ts _ => .timestamp
  | .oid _ => .objectId
  | .str _ => .string
  | .bin _ _ => .binData
  | .dec _ _ => .numberDecimal
  | .null => .null
  | .undef => .undefined
  | .obj _ => .object
  | .arr _ => .array
  | .regex _ _ => .regEx
  | .minKey => .minKey
  | .maxKey => .maxKey
  | .eoo => .eoo

abbrev Field := String × BVal

/-- Little-endian bytes of `n` over `k` bytes. -/
def leBytes (k n : Nat) : List UInt8 :=
  match k with
  | 0 => []
  | k + 1 => UInt8.ofNat (n % 256) :: leBytes k (n / 256)

@[simp] theorem leBytes_length (k n : Nat) : (leBytes k n).length = k := by
  induction k generalizing n with
  | zero => rfl
  | succ k ih => simp [leBytes, ih]

/-- Two's-complement little-endian bytes of an integer over `k` bytes. -/
def leBytesInt (k : Nat) (v : Int) : List UInt8 :=
  leBytes k (v.emod (2 ^ (8 * k))).toNat

/-- ASCII bytes of a field name (names are modelled as ASCII). -/
def strBytes (s : String) : List UInt8 :=
  s.data.map fun c => UInt8.ofNat c.toNat

mutual

/-- BSON value payload bytes, exactly as `BSONElement::value()` exposes
them (what `_storePrevious` copies and literals re-emit). -/
def valueBytes : BVal → List UInt8
  | .i32 v => leBytesInt 4 v
  | .i64 v => leBytesInt 8 v
  | .bool b => [if b then 1 else 0]
  | .date ms => leBytesInt 8 ms
  | .ts v => leBytes 8 v
  | .oid bytes => bytes
  | .str bytes => leBytes 4 (bytes.length + 1) ++ bytes ++ [0]
  | .bin sub bytes => leBytes 4 bytes.length ++ [sub] ++ bytes
  | .dec lo hi => leBytes 8 lo ++ leBytes 8 hi
  | .null => []
  | .undef => []
  | .obj fs => leBytes 4 (4 + (fieldsBytes fs).length + 1) ++ fieldsBytes fs ++ [0]
  | .arr fs => leBytes 4 (4 + (fieldsBytes fs).length + 1) ++ fieldsBytes fs ++ [0]
  | .regex pat opts => pat ++ [0] ++ opts ++ [0]
  | .minKey => []
  | .maxKey => []
  | .eoo => []

/-- Serialized element list of an object. -/
def fieldsBytes : List Field → List UInt8
  | [] => []
  | (n, v) :: rest =>
      (v.btype.code :: strBytes n) ++ [0] ++ valueBytes v ++ fieldsBytes rest

end

/-- Serialized BSON object: little-endian total size, elements, 0x00. -/
def objBytes (fs : List Field) : List UInt8 :=
  leBytes 4 (4 + (fieldsBytes fs).length + 1) ++ fieldsBytes fs ++ [0]

mutual

/-- Structural node count of a value (used only as a recursion-depth
bound for the traversal and merge loops below). -/
def sizeV : BVal → Nat
  | .obj fs => 1 + sizeF fs
  | _ => 1

/-- Structural node count of a field list. -/
def sizeF : List Field → Nat
  | [] => 0
  | (_, v) :: rest => 1 + sizeV v + sizeF rest

end

mutual

/-- Structural equality of values; this models
`BSONElement::binaryEqualValues` (same type tag and same value bytes,
field names ignored). -/
def beqV : BVal → BVal → Bool
  | .i32 a, .i32 b => a == b
  | .i64 a, .i64 b => a == b
  | .bool a, .bool b => a == b
  | .date a, .date b => a == b
  | .ts a, .ts b => a == b
  | .oid a, .oid b => a == b
  | .str a, .str b => a == b
  | .bin sa a, .bin sb b => sa == sb && a == b
  | .dec la ha, .dec lb hb => la == lb && ha == hb
  | .null, .null => true
  | .undef, .undef => true
  | .obj a, .obj b => beqFields a b
  | .arr a, .arr b => beqFields a b
  | .regex pa oa, .regex pb ob => pa == pb && oa == ob
  | .minKey, .minKey => true
  | .maxKey, .maxKey => true
  | .eoo, .eoo => true
  | _, _ => false

/-- Structural equality of field lists (names and values, in order). -/
def beqFields : List Field → List Field → Bool
  | [], [] => true
  | (n, v) :: r, (m, w) :: s => n == m && beqV v w && beqFields r s
  | _, _ => false

end

/-! ### Collaborator contracts, modelled from the spec -/

/-- Modelled from the spec: `bsoncolumn::uses128bit` is not under `src/`;
the spec assigns the 128-bit path to String, Binary and Decimal128. -/
def uses128bit (t : BType) : Bool :=
  t == .string || t == .binData || t == .numberDecimal

/-- Modelled from the spec: `bsoncolumn::usesDeltaOfDelta` is not under
`src/`; the spec uses delta-of-delta only for Timestamp. -/
def usesDeltaOfDelta (t : BType) : Bool :=
  t == .timestamp

/-- Wrap an integer into signed 64-bit range (two's complement). -/
def wrap64 (x : Int) : Int :=
  (x + 2 ^ 63).emod (2 ^ 64) - 2 ^ 63

/-- Wrap an integer into signed 128-bit range (two's complement). -/
def wrap128 (x : Int) : Int :=
  (x + 2 ^ 127).emod (2 ^ 128) - 2 ^ 127

/-- Modelled from the spec: `calcDelta` lives in `bsoncolumn_util.h`, not
under `src/`; the spec defines it as current minus previous as a signed
64-bit value. -/
def calcDelta64 (a b : Int) : Int :=
  wrap64 (a - b)

/-- Modelled from the spec: the 128-bit delta used for strings, binaries
and Decimal128. -/
def calcDelta128 (a b : Int) : Int :=
  wrap128 (a - b)

/-- Modelled from the spec: `Simple8bTypeUtil::encodeInt64` is zig-zag
(signed to unsigned). -/
def encodeInt64 (d : Int) : Nat :=
  if 0 ≤ d then (2 * d).toNat else (-(2 * d) - 1).toNat

/-- Modelled from the spec: `Simple8bTypeUtil::encodeInt128`, zig-zag. -/
def encodeInt128 (d : Int) : Nat :=
  if 0 ≤ d then (2 * d).toNat else (-(2 * d) - 1).toNat

/-- Modelled from the spec: `Simple8bTypeUtil::encodeObjectId` processes
only the 7-byte timestamp-plus-counter portion of the 12 OID bytes (the
5-byte instance-unique portion, bytes 4 through 8, is skipped). -/
def encodeObjectId (bytes : List UInt8) : Int :=
  Int.ofNat ((bytes.take 4 ++ bytes.drop 9).foldl (fun acc b => acc * 256 + b.toNat) 0)

/-- Modelled from the spec: `Simple8bTypeUtil::encodeString` succeeds iff
the string is at most 16 bytes; the value is a reversible 128-bit packing
of the bytes. -/
def encodeString (bytes : List UInt8) : Option Int :=
  if bytes.length ≤ 16 then
    some (Int.ofNat (bytes.foldl (fun acc b => acc * 256 + b.toNat) 0))
  else none

/-- Modelled from the spec: `Simple8bTypeUtil::encodeBinary` succeeds iff
the payload is at most 16 bytes. -/
def encodeBinary (bytes : List UInt8) : Option Int :=
  if bytes.length ≤ 16 then
    some (Int.ofNat (bytes.foldl (fun acc b => acc * 256 + b.toNat) 0))
  else none

/-- Modelled from the spec: `Simple8bTypeUtil::encodeDecimal128` is a
reversible 128-bit encoding. -/
def encodeDecimal128 (lo hi : Nat) : Int :=
  Int.ofNat (lo + hi * 2 ^ 64)

/-! ### Simple-8b builder, modelled from the spec

The bit packer itself is deliberately excluded from the source (spec §1);
the source consumes it through the contract of spec §6: `append` returns
false iff the value exceeds the largest selector (60 bits for the 64-bit
scheme, 120 for the 128-bit scheme), appends may emit a finalized 64-bit
block to the sink as a side effect, `skip` enqueues a missing marker, and
`flush` forces emission of a non-empty pending block.  A pending block is
emitted when the pending values no longer fit a common bit width within
the data bits of one block.  The 64-bit block stores its slot count in the
low byte; the packed payload is truncated to the remaining bits, which is
immaterial here because no claim in scope decodes block payloads. -/

/-- A pending slot: a value or a missing marker (from `skip`). -/
abbrev Slot := Option Nat

/-- Number of binary digits of `v` (at least one): the smallest positive
`w` with `v < 2 ^ w`, searched over the 128-bit range. -/
def bitsFor (v : Nat) : Nat :=
  ((((List.range 129).drop 1).find? fun w => v < 2 ^ w).getD 129)

/-- Bit width needed for a slot (a missing marker needs one bit). -/
def slotWidth : Slot → Nat
  | none => 1
  | some v => bitsFor v

/-- Largest bit width over the pending slots. -/
def maxSlotWidth (xs : List Slot) : Nat :=
  xs.foldl (fun a x => max a (slotWidth x)) 0

/-- Whether the slots fit one block with `cap` data bits at a common
width. -/
def canPack (cap : Nat) (xs : List Slot) : Bool :=
  xs.length * maxSlotWidth xs ≤ cap

/-- Pending state of one Simple-8b builder. -/
structure S8b where
  pending : List Slot
  deriving Repr

/-- The empty Simple-8b builder. -/
def S8b.empty : S8b := ⟨[]⟩

/-- Append: range check, then either extend the pending block or emit it
and start a new one.  Returns success, the new state, and emitted
blocks. -/
def s8bAppend (cap : Nat) (s : S8b) (v : Nat) : Bool × S8b × List (List Slot) :=
  if 2 ^ cap ≤ v then (false, s, [])
  else if canPack cap (s.pending ++ [some v]) then (true, ⟨s.pending ++ [some v]⟩, [])
  else (true, ⟨[some v]⟩, [s.pending])

/-- Skip: enqueue a missing marker, emitting the pending block if it no
longer fits. -/
def s8bSkip (cap : Nat) (s : S8b) : S8b × List (List Slot) :=
  if canPack cap (s.pending ++ [none]) then (⟨s.pending ++ [none]⟩, [])
  else (⟨[none]⟩, [s.pending])

/-- Flush: emit the pending block when non-empty. -/
def s8bFlush (s : S8b) : S8b × List (List Slot) :=
  if s.pending.isEmpty then (s, []) else (⟨[]⟩, [s.pending])

/-- The 8 wire bytes of an emitted block: slot count in the low byte, the
packed payload truncated into the remaining 56 bits. -/
def blockBytes (b : List Slot) : List UInt8 :=
  UInt8.ofNat b.length ::
    leBytes 7 ((b.foldl (fun acc x => acc * 2 ^ 61 + (match x with | none => 2 ^ 60 | some v => v)) 1) % 2 ^ 56)

@[simp] theorem blockBytes_length (b : List Slot) : (blockBytes b).length = 8 := by
  simp [blockBytes]

/-! ### EncodingState (translated from `bsoncolumnbuilder.cpp`) -/

/-- Constants from the anonymous namespace of the source. -/
def kMaxCount : Nat := 16

/-- `kControlByteForScaleIndex` from the source; index 5 is
`kMemoryAsInteger`. -/
def kControlByteForScaleIndex (i : Nat) : UInt8 :=
  [0x90, 0xA0, 0xB0, 0xC0, 0xD0, 0x80].getD i 0x80

/-- Modelled from the spec: `Simple8bTypeUtil::kMemoryAsInteger` is scale
index 5 (reinterpret the double bits as an integer). -/
def kMemoryAsInteger : Nat := 5

/-- Per-field encoder state (`BSONColumnBuilder::EncodingState`).  The
double-only field `_lastValueInPrevBlock` is outside the embedding scope
(floating point) and is omitted; `_scaleIndex` is kept and only ever holds
`kMemoryAsInteger` because the double path is the only writer of other
values. -/
structure EncState where
  prev : BVal
  prevDelta : Int
  storeWith128 : Bool
  controlByteOffset : Option Nat
  prevEncoded64 : Int
  prevEncoded128 : Int
  scaleIndex : Nat
  s8b64 : S8b
  s8b128 : S8b

/-- A fresh state: previous is the EOO sentinel (`_storePrevious` of an
empty element in the constructor). -/
def EncState.init : EncState :=
  { prev := .eoo, prevDelta := 0, storeWith128 := false,
    controlByteOffset := none, prevEncoded64 := 0, prevEncoded128 := 0,
    scaleIndex := kMemoryAsInteger, s8b64 := .empty, s8b128 := .empty }

/-- An encoder together with the buffer it writes and the control-block
records its writer callback captured (offset and size pairs); the regular
mode has no writer and its records stay empty. -/
structure EncCtx where
  st : EncState
  buf : List UInt8
  recs : List (Nat × Nat)

/-- `_incrementSimple8bCount`: allocate or bump the control byte; returns
the full control block offset when the count reached `kMaxCount`.  The
upper-nibble mismatch branch closes the run (recording it when a writer
exists) and allocates a fresh control byte, as the recursive call in the
source does. -/
def incrementSimple8bCount (w : Bool) (c : EncCtx) : EncCtx × Option Nat :=
  let control := kControlByteForScaleIndex c.st.scaleIndex
  match c.st.controlByteOffset with
  | none =>
      let off := c.buf.length
      (⟨{ c.st with controlByteOffset := some off }, c.buf ++ [control], c.recs⟩, none)
  | some o =>
      let byte := c.buf.getD o 0
      if byte &&& 0xF0 ≠ control then
        let recs := if w then c.recs ++ [(o, c.buf.length - o)] else c.recs
        let off := c.buf.length
        (⟨{ c.st with controlByteOffset := some off }, c.buf ++ [control], recs⟩, none)
      else
        let count := (byte &&& 0x0F).toNat + 1
        let buf := c.buf.set o (control ||| (UInt8.ofNat count &&& 0x0F))
        if count + 1 = kMaxCount then
          (⟨{ c.st with controlByteOffset := none }, buf, c.recs⟩, some o)
        else
          (⟨{ c.st with controlByteOffset := some o }, buf, c.recs⟩, none)

/-- The sink from `_createBufferWriter`: bump the control byte, append the
block bytes, and record the control block if it just became full.  The
double-only `_lastValueInPrevBlock` update is out of scope. -/
def writeBlock (w : Bool) (c : EncCtx) (blk : List Slot) : EncCtx :=
  let (c1, full) := incrementSimple8bCount w c
  let buf := c1.buf ++ blockBytes blk
  let recs :=
    match full with
    | some o => if w then c1.recs ++ [(o, buf.length - o)] else c1.recs
    | none => c1.recs
  ⟨c1.st, buf, recs⟩

/-- Feed a sequence of emitted blocks through the sink. -/
def writeBlocks (w : Bool) (c : EncCtx) (blks : List (List Slot)) : EncCtx :=
  blks.foldl (writeBlock w) c

/-- Wire bytes of an uncompressed literal: type byte, the empty field
name's null terminator, then the payload — exactly the image that
`_storePrevious` keeps and `_writeLiteralFromPrevious` re-emits. -/
def litBytes (v : BVal) : List UInt8 :=
  v.btype.code :: 0 :: valueBytes v

/-- `_initializeFromPrevious` minus the double case (out of scope). -/
def initFromPrevious (st : EncState) : EncState :=
  let st := { st with storeWith128 := uses128bit st.prev.btype }
  match st.prev with
  | .str bytes => { st with prevEncoded128 := (encodeString bytes).getD 0 }
  | .bin _ bytes => { st with prevEncoded128 := (encodeBinary bytes).getD 0 }
  | .dec lo hi => { st with prevEncoded128 := encodeDecimal128 lo hi }
  | .oid bytes => { st with prevEncoded64 := encodeObjectId bytes }
  | _ => st

/-- `_writeLiteralFromPrevious`: record and close any open control run,
append the literal (recording it when a writer exists), reset derived
state and re-derive the per-type encoded baseline. -/
def writeLiteralFromPrevious (w : Bool) (c : EncCtx) : EncCtx :=
  let recs :=
    match c.st.controlByteOffset with
    | some o => if w then c.recs ++ [(o, c.buf.length - o)] else c.recs
    | none => c.recs
  let lit := litBytes c.st.prev
  let buf := c.buf ++ lit
  let recs := if w then recs ++ [(buf.length - lit.length, lit.length)] else recs
  let st := { c.st with controlByteOffset := none,
                        scaleIndex := kMemoryAsInteger,
                        prevDelta := 0 }
  ⟨initFromPrevious st, buf, recs⟩

/-- `objectIdDeltaPossible`: the 5-byte instance-unique portions (bytes 4
through 8) must be identical. -/
def objectIdDeltaPossible (a b : List UInt8) : Bool :=
  (a.drop 4).take 5 == (b.drop 4).take 5

/-- `EncodingState::flush`: flush both Simple-8b builders through the
sink, then record the still-open control block when a writer exists. -/
def encFlush (w : Bool) (c : EncCtx) : EncCtx :=
  let (s128, bl128) := s8bFlush c.st.s8b128
  let c := writeBlocks w ⟨{ c.st with s8b128 := s128 }, c.buf, c.recs⟩ bl128
  let (s64, bl64) := s8bFlush c.st.s8b64
  let c := writeBlocks w ⟨{ c.st with s8b64 := s64 }, c.buf, c.recs⟩ bl64
  let recs :=
    match c.st.controlByteOffset with
    | some o => if w then c.recs ++ [(o, c.buf.length - o)] else c.recs
    | none => c.recs
  ⟨c.st, c.buf, recs⟩

/-- `EncodingState::skip`: skip in the active builder (the double rescale
after a block write is out of scope). -/
def encSkip (w : Bool) (c : EncCtx) : EncCtx :=
  if c.st.storeWith128 then
    let (s, bl) := s8bSkip 120 c.st.s8b128
    writeBlocks w ⟨{ c.st with s8b128 := s }, c.buf, c.recs⟩ bl
  else
    let (s, bl) := s8bSkip 60 c.st.s8b64
    writeBlocks w ⟨{ c.st with s8b64 := s }, c.buf, c.recs⟩ bl

/-- The delta stage of `EncodingState::append` for the 128-bit group
(String, Binary, Decimal128): returns whether the value was compressed,
plus the updated context.  `appendEncoded` updates `_prevEncoded128` even
when the Simple-8b append is rejected, as in the source. -/
def encAppend128 (w : Bool) (c : EncCtx) (v : BVal) : Bool × EncCtx :=
  let appendEncoded := fun (c : EncCtx) (encoded : Int) =>
    let delta := encodeInt128 (calcDelta128 encoded c.st.prevEncoded128)
    let (ok, s, bl) := s8bAppend 120 c.st.s8b128 delta
    let c := writeBlocks w ⟨{ c.st with s8b128 := s, prevEncoded128 := encoded }, c.buf, c.recs⟩ bl
    (ok, c)
  match v with
  | .str bytes =>
      match encodeString bytes with
      | some encoded => appendEncoded c encoded
      | none => (false, c)
  | .bin _ bytes =>
      match c.st.prev with
      | .bin _ pbytes =>
          if bytes.length ≠ pbytes.length then (false, c)
          else
            match encodeBinary bytes with
            | some encoded => appendEncoded c encoded
            | none => (false, c)
      | _ => (false, c)
  | .dec lo hi => appendEncoded c (encodeDecimal128 lo hi)
  | _ => (false, c)

/-- The delta stage of `EncodingState::append` for the 64-bit group:
computes the per-type delta (delta-of-delta for Timestamp), pushes its
zig-zag encoding when encoding is possible.  The types that reach
`MONGO_UNREACHABLE` in the source cannot reach this stage here either
(their only same-type pairs are binary-equal and take the zero-delta
shortcut); they fall back to the literal path. -/
def encAppend64 (w : Bool) (c : EncCtx) (v : BVal) : Bool × EncCtx :=
  let push := fun (st : EncState) (value : Int) =>
    let (ok, s, bl) := s8bAppend 60 st.s8b64 (encodeInt64 value)
    let c := writeBlocks w ⟨{ st with s8b64 := s }, c.buf, c.recs⟩ bl
    (ok, c)
  match v, c.st.prev with
  | .i32 a, .i32 b => push c.st (calcDelta64 a b)
  | .i64 a, .i64 b => push c.st (calcDelta64 a b)
  | .oid bytes, .oid pbytes =>
      if objectIdDeltaPossible bytes pbytes then
        let curEncoded := encodeObjectId bytes
        push { c.st with prevEncoded64 := curEncoded }
          (calcDelta64 curEncoded c.st.prevEncoded64)
      else (false, c)
  | .ts a, .ts b =>
      let currTimestampDelta := calcDelta64 (Int.ofNat a) (Int.ofNat b)
      push { c.st with prevDelta := currTimestampDelta }
        (calcDelta64 currTimestampDelta c.st.prevDelta)
  | .date a, .date b => push c.st (calcDelta64 a b)
  | .bool a, .bool b =>
      push c.st (calcDelta64 (if a then 1 else 0) (if b then 1 else 0))
  | .undef, _ => push c.st 0
  | .null, _ => push c.st 0
  | _, _ => (false, c)

/-- `EncodingState::append`: type change flushes both builders and writes
a literal; otherwise a binary-equal value is a zero delta, else the
per-type delta stage runs; failure of the delta stage falls back to the
literal path. -/
def encAppend (w : Bool) (c : EncCtx) (v : BVal) : EncCtx :=
  if c.st.prev.btype ≠ v.btype then
    let st1 := { c.st with prev := v }
    let (s128, bl128) := s8bFlush st1.s8b128
    let c1 := writeBlocks w ⟨{ st1 with s8b128 := s128 }, c.buf, c.recs⟩ bl128
    let (s64, bl64) := s8bFlush c1.st.s8b64
    let c2 := writeBlocks w ⟨{ c1.st with s8b64 := s64 }, c1.buf, c1.recs⟩ bl64
    writeLiteralFromPrevious w c2
  else
    let (compressed, c) :=
      if !usesDeltaOfDelta v.btype && beqV v c.st.prev then
        if c.st.storeWith128 then
          let (_, s, bl) := s8bAppend 120 c.st.s8b128 0
          (true, writeBlocks w ⟨{ c.st with s8b128 := s }, c.buf, c.recs⟩ bl)
        else
          let (_, s, bl) := s8bAppend 60 c.st.s8b64 0
          (true, writeBlocks w ⟨{ c.st with s8b64 := s }, c.buf, c.recs⟩ bl)
      else if c.st.storeWith128 then encAppend128 w c v
      else encAppend64 w c v
    let c := ⟨{ c.st with prev := v }, c.buf, c.recs⟩
    if compressed then c
    else
      let (s128, bl128) := s8bFlush c.st.s8b128
      let c1 := writeBlocks w ⟨{ c.st with s8b128 := s128 }, c.buf, c.recs⟩ bl128
      let (s64, bl64) := s8bFlush c1.st.s8b64
      let c2 := writeBlocks w ⟨{ c1.st with s8b64 := s64 }, c1.buf, c1.recs⟩ bl64
      writeLiteralFromPrevious w c2

/-! ### Lock-step traversal and structural merge (translated from the
anonymous-namespace functions of the source) -/

mutual

/-- Leaf count contributed by one value in a pre-order traversal. -/
def leavesV : BVal → Nat
  | .obj fs => leavesF fs
  | _ => 1

/-- Number of non-Object leaves reached by a pre-order traversal. -/
def leavesF : List Field → Nat
  | [] => 0
  | (_, v) :: rest => leavesV v + leavesF rest

end

mutual

/-- The visits `_traverse` makes for one value. -/
def missingV : BVal → List (BVal × Option BVal)
  | .obj fs => missingLeaves fs
  | v => [(v, none)]

/-- `_traverse`: visit every non-Object leaf of the reference, pairing it
with the empty sentinel. -/
def missingLeaves : List Field → List (BVal × Option BVal)
  | [] => []
  | (_, v) :: rest => missingV v ++ missingLeaves rest

end

/-- `_traverseLockStep`: walk the reference with a parallel iterator over
the object.  Returns the final iterator position, the flag the source
returns (loop completed and the iterator at this level was exhausted, or
false from an early incompatibility return), and the list of visited
pairs, one per leaf-callback invocation, in order.  The first argument is
recursion fuel, in wrappers instantiated with the structural size of the
reference, which bounds the recursion depth; the fuel-exhausted branch is
unreachable then. -/
def tlsLoopF : Nat → List Field → List Field → List Field × Bool × List (BVal × Option BVal)
  | 0, _, it => (it, false, [])
  | _ + 1, [], it => (it, it.isEmpty, [])
  | fuel + 1, (name, .obj refObj) :: refRest, it =>
      match it with
      | [] =>
          if refObj.isEmpty then ([], false, [])
          else
            let vis := missingLeaves refObj
            let (it2, ok, vis2) := tlsLoopF fuel refRest []
            (it2, ok, vis ++ vis2)
      | (iname, iv) :: itRest =>
          if name == iname then
            match iv with
            | .obj itObj =>
                if refObj.isEmpty != itObj.isEmpty then ((iname, iv) :: itRest, false, [])
                else
                  let (_, okInner, visInner) := tlsLoopF fuel refObj itObj
                  if !okInner then (itRest, false, visInner)
                  else
                    let (it2, ok, vis2) := tlsLoopF fuel refRest itRest
                    (it2, ok, visInner ++ vis2)
            | _ => ((iname, iv) :: itRest, false, [])
          else
            let vis := missingLeaves refObj
            let (it2, ok, vis2) := tlsLoopF fuel refRest ((iname, iv) :: itRest)
            (it2, ok, vis ++ vis2)
  | fuel + 1, (name, v) :: refRest, it =>
      match it with
      | (iname, iv) :: itRest =>
          if name == iname then
            let (it2, ok, vis2) := tlsLoopF fuel refRest itRest
            (it2, ok, (v, some iv) :: vis2)
          else
            let (it2, ok, vis2) := tlsLoopF fuel refRest ((iname, iv) :: itRest)
            (it2, ok, (v, none) :: vis2)
      | [] =>
          let (it2, ok, vis2) := tlsLoopF fuel refRest []
          (it2, ok, (v, none) :: vis2)

/-- The traversal loop at adequate fuel. -/
def tlsLoop (ref obj : List Field) : List Field × Bool × List (BVal × Option BVal) :=
  tlsLoopF (sizeF ref + 1) ref obj

/-- `traverseLockStep`: compatible iff the walk succeeded and the object
iterator is exhausted. -/
def traverseLockStep (ref obj : List Field) : Bool × List (BVal × Option BVal) :=
  let (it, ok, vis) := tlsLoop ref obj
  (ok && it.isEmpty, vis)

/-- The two trailing loops of `_mergeObj`: append the remaining elements
of whichever side is left, rejecting empty objects and duplicate names. -/
def mergeTail (acc : List Field) : List Field → Option (List Field)
  | [] => some acc
  | (n, v) :: rest =>
      if (match v with | .obj o => o.isEmpty | _ => false) then none
      else if acc.any (fun f => f.1 == n) then none
      else mergeTail (acc ++ [(n, v)]) rest

/-- The main loop of `_mergeObj`, with the builder modelled as the
accumulated field list.  The first argument is recursion fuel, in the
wrapper instantiated with the combined structural size, which bounds the
recursion depth. -/
def mergeLoopF : Nat → List Field → List Field → List Field → Option (List Field)
  | 0, _, _, _ => none
  | fuel + 1, acc, ref, obj =>
      match ref, obj with
      | (rn, rv) :: refRest, (on_, ov) :: objRest =>
          if rn == on_ then
            match rv, ov with
            | .obj refO, .obj itO =>
                if refO.isEmpty != itO.isEmpty then none
                else
                  match mergeLoopF fuel [] refO itO with
                  | none => none
                  | some merged => mergeLoopF fuel (acc ++ [(rn, .obj merged)]) refRest objRest
            | .obj _, _ => none
            | _, .obj _ => none
            | _, _ => mergeLoopF fuel (acc ++ [(rn, rv)]) refRest objRest
          else
            if objRest.any (fun f => f.1 == rn) then
              if acc.any (fun f => f.1 == on_) then none
              else mergeLoopF fuel (acc ++ [(on_, ov)]) ((rn, rv) :: refRest) objRest
            else
              mergeLoopF fuel (acc ++ [(rn, rv)]) refRest ((on_, ov) :: objRest)
      | refRest, [] => mergeTail acc refRest
      | [], objRest => mergeTail acc objRest

/-- `mergeObj`: merge the object into the reference, or fail. -/
def mergeObj (ref obj : List Field) : Option (List Field) :=
  mergeLoopF (sizeF ref + sizeF obj + 1) [] ref obj

/-! ### Top-level column builder (translated from the source) -/

/-- Modelled from the spec: `bsoncolumn::kInterleavedStartControlByte` is
a reserved control byte, distinct from the Simple-8b control bytes
0x80..0xD0 and from every type byte. -/
def kInterleavedStartControlByte : UInt8 := 0xF0

/-- Modelled from the spec: a literal is introduced by its own type byte,
distinct from the 0x80..0xD0 control range. -/
def isLiteralControlByte (b : UInt8) : Bool :=
  b &&& 0xE0 == 0

/-- Number of Simple-8b blocks after a control byte: lower nibble plus
one (spec wire format). -/
def numSimple8bBlocksForControlByte (b : UInt8) : Nat :=
  (b &&& 0x0F).toNat + 1

/-- Row elements represented by one captured control block: 1 for a
literal; for a Simple-8b run the sum of the slot counts of its blocks
(modelled from the spec: the reader's `blockSize` per block — our block
wire format stores the slot count in the first byte of the block). -/
def controlBlockElems (bytes : List UInt8) : Nat :=
  match bytes with
  | [] => 0
  | ctrl :: rest =>
      if isLiteralControlByte ctrl then 1
      else
        (List.range (numSimple8bBlocksForControlByte ctrl)).foldl
          (fun acc i => acc + (rest.getD (8 * i) 0).toNat) 0

/-- Errors surfaced by the builder: `uassert` validation failures
(MinKey/MaxKey) and `invariant` fatal aborts. -/
inductive BErr where
  | validation
  | fatal
  deriving DecidableEq, Repr

/-- `BSONColumnBuilder::Mode`. -/
inductive Mode where
  | regular
  | subObjDeterminingReference
  | subObjAppending
  deriving DecidableEq, Repr

/-- `BSONColumnBuilder`: the shared output buffer, the regular-mode
encoding state, the sub-object machinery, and the element counter. -/
structure Builder where
  buf : List UInt8
  state : EncState
  mode : Mode
  referenceSubObj : List Field
  bufferedObjElements : List (List Field)
  subobj : List EncCtx
  elementCount : Nat

/-- The constructor: reset the buffer and skip the four element-count
bytes. -/
def Builder.init : Builder :=
  { buf := [0, 0, 0, 0], state := EncState.init, mode := .regular,
    referenceSubObj := [], bufferedObjElements := [], subobj := [],
    elementCount := 0 }

/-- MinKey or MaxKey value. -/
def isMinMaxV : BVal → Bool
  | .minKey => true
  | .maxKey => true
  | _ => false

/-- MinKey or MaxKey on the object side of a visited pair (the missing
sentinel has type EOO and passes). -/
def isMinMaxOpt : Option BVal → Bool
  | some v => isMinMaxV v
  | none => false

/-- Append or skip on a per-leaf encoder. -/
def appendSubElement (c : EncCtx) : Option BVal → EncCtx
  | some v => encAppend true c v
  | none => encSkip true c

/-- One round of the control-block interleave loop of
`_flushSubObjMode`: repeatedly take the encoder that has written the
fewest row elements (ties by the smaller index), move its next control
block to the main buffer, and re-queue it with its element count
increased by the elements the block represents.  The heap is modelled as
the list of live (elements-written, encoder-index) pairs; the minimum is
taken by sorting, which matches the min-heap since all pairs carry
distinct indices.  The first argument is recursion fuel; each iteration
either consumes a control-block record or drops a heap entry, so the
wrapper's fuel — total records plus heap size — bounds the iteration
count and the fuel-exhausted branch is unreachable. -/
def heapLoopF : Nat → List (List UInt8 × List (Nat × Nat)) → List (Nat × Nat) → List UInt8
  | 0, _, _ => []
  | fuel + 1, slots, heap =>
      match heap.mergeSort (fun a b => a.1 < b.1 || (a.1 == b.1 && a.2 ≤ b.2)) with
      | [] => []
      | hmin :: heapRest =>
          match (slots.getD hmin.2 ([], [])).2 with
          | [] => heapLoopF fuel slots heapRest
          | (off, sz) :: rest =>
              let bytes := (((slots.getD hmin.2 ([], [])).1.drop off).take sz)
              let slots2 := slots.set hmin.2 ((slots.getD hmin.2 ([], [])).1, rest)
              if rest.isEmpty then bytes ++ heapLoopF fuel slots2 heapRest
              else
                bytes ++
                  heapLoopF fuel slots2 (heapRest ++ [(hmin.1 + controlBlockElems bytes, hmin.2)])

/-- The interleave loop at adequate fuel. -/
def heapLoop (slots : List (List UInt8 × List (Nat × Nat)))
    (heap : List (Nat × Nat)) : List UInt8 :=
  heapLoopF ((slots.map fun s => s.2.length).sum + heap.length + 1) slots heap

/-- The tail of `_flushSubObjMode` after the (conditional)
`_finishDetermineSubObjReference` call: flush every per-leaf encoder,
interleave all captured control blocks into the main buffer in decoder
order, terminate the interleaved region with EOO and return to Regular
mode.  Every call site of `_flushSubObjMode` that can recurse through
`_appendSubElements` has mode `SubObjAppending`, so this tail is exactly
what runs there. -/
def flushSubObjNoFinish (b : Builder) : Builder :=
  let subobj := b.subobj.map (encFlush true)
  let slots := subobj.map fun c => (c.buf, c.recs)
  let heap := (List.range slots.length).map fun i => (0, i)
  { b with buf := b.buf ++ heapLoop slots heap ++ [0], subobj := [], mode := .regular }

/-- `_startDetermineSubObjReference`: flush and replace the regular
encoding state, then validate the object's leaves (MinKey/MaxKey) — the
source order, so the flush happens before a validation failure — and on
success adopt the object as reference and buffer it. -/
def startDetermine (b : Builder) (fs : List Field) : Builder × Option BErr :=
  let c := encFlush false ⟨b.state, b.buf, []⟩
  let b := { b with buf := c.buf, state := EncState.init }
  if (missingLeaves fs).any (fun p => isMinMaxV p.1) then (b, some .validation)
  else
    ({ b with referenceSubObj := fs,
              bufferedObjElements := b.bufferedObjElements ++ [fs],
              mode := .subObjDeterminingReference }, none)

/-- `_appendSubElements`: traverse against the reference collecting the
flat leaf list (validating MinKey/MaxKey on the way); on incompatibility
flush the sub-object mode and start a fresh determining phase; otherwise
feed each leaf (or skip) to its per-leaf encoder.  The size mismatch
`invariant` is a fatal abort. -/
def appendSubElements (b : Builder) (fs : List Field) : Builder × Option BErr :=
  let (compat, vis) := traverseLockStep b.referenceSubObj fs
  if vis.any (fun p => isMinMaxOpt p.2) then (b, some .validation)
  else if !compat then
    startDetermine (flushSubObjNoFinish b) fs
  else if vis.length ≠ b.subobj.length then (b, some .fatal)
  else
    ({ b with subobj := (b.subobj.zip vis).map fun sv => appendSubElement sv.1 sv.2.2 }, none)

/-- The replay loop at the end of `_finishDetermineSubObjReference`:
append each remaining buffered object, clearing the buffered queue at the
end; an exception mid-replay leaves the queue untouched, as in the
source. -/
def replayBuffered (b : Builder) : List (List Field) → Builder × Option BErr
  | [] => ({ b with bufferedObjElements := [] }, none)
  | o :: rest =>
      match appendSubElements b o with
      | (b, some e) => (b, some e)
      | (b, none) => replayBuffered b rest

/-- The first half of `_finishDetermineSubObjReference`: write the
interleaved-start byte and the reference verbatim, and create one
per-leaf encoder seeded with the reference leaf and fed the first
buffered object's matched leaf (zero delta) or a skip. -/
def finishSeed (b : Builder) (vis : List (BVal × Option BVal)) : Builder :=
  { b with buf := b.buf ++ [kInterleavedStartControlByte] ++ objBytes b.referenceSubObj,
           subobj := vis.map fun p =>
             appendSubElement ⟨initFromPrevious { EncState.init with prev := p.1 }, [], []⟩ p.2 }

/-- `_finishDetermineSubObjReference`: write the interleaved-start byte
and the reference verbatim, create one per-leaf encoder seeded with the
reference leaf and fed the first buffered object's leaf (zero delta) or a
skip, check the traversal `invariant`, enter SubObjAppending and replay
the remaining buffered objects. -/
def finishDetermine (b : Builder) : Builder × Option BErr :=
  let (compat, vis) := traverseLockStep b.referenceSubObj (b.bufferedObjElements.headD [])
  if !compat then (finishSeed b vis, some .fatal)
  else
    replayBuffered { finishSeed b vis with mode := .subObjAppending }
      b.bufferedObjElements.tail

/-- `_flushSubObjMode`: finish determining the reference when still in
that phase (propagating its errors), then flush and interleave. -/
def flushSubObjMode (b : Builder) : Builder × Option BErr :=
  if b.mode == .subObjDeterminingReference then
    match finishDetermine b with
    | (b, some e) => (b, some e)
    | (b, none) => (flushSubObjNoFinish b, none)
  else (flushSubObjNoFinish b, none)

/-- The scalar (or empty-object) arm of `BSONColumnBuilder::append`:
flush any sub-object mode, then append to the regular state. -/
def scalarAppend (b : Builder) (v : BVal) : Builder × Option BErr :=
  match (if b.mode != .regular then flushSubObjMode b else (b, none)) with
  | (b, some e) => (b, some e)
  | (b, none) =>
      let c := encAppend false ⟨b.state, b.buf, []⟩ v
      ({ b with state := c.st, buf := c.buf, elementCount := b.elementCount + 1 }, none)

/-- `BSONColumnBuilder::append`.  The MinKey/MaxKey check on the element
itself comes first, before any state change.  Non-empty objects dispatch
on the mode: Regular starts a determining phase; DeterminingReference
validates visited leaves, merges or restarts, and applies the buffering
heuristic; SubObjAppending forwards to `_appendSubElements`. -/
def appendB (b : Builder) (v : BVal) : Builder × Option BErr :=
  if isMinMaxV v then (b, some .validation)
  else
    match v with
    | .obj fs =>
        if fs.isEmpty then scalarAppend b v
        else
          match b.mode with
          | .regular =>
              match startDetermine b fs with
              | (b, some e) => (b, some e)
              | (b, none) => ({ b with elementCount := b.elementCount + 1 }, none)
          | .subObjDeterminingReference =>
              let (compat, vis) := traverseLockStep b.referenceSubObj fs
              if vis.any (fun p => isMinMaxOpt p.2) then (b, some .validation)
              else
                match (if compat then some b.referenceSubObj
                       else mergeObj b.referenceSubObj fs) with
                | none =>
                    match flushSubObjMode b with
                    | (b, some e) => (b, some e)
                    | (b, none) =>
                        ({ b with referenceSubObj := fs,
                                  bufferedObjElements := b.bufferedObjElements ++ [fs],
                                  mode := .subObjDeterminingReference,
                                  elementCount := b.elementCount + 1 }, none)
                | some merged =>
                    let b := { b with referenceSubObj := merged }
                    if vis.length * 2 ≥ b.bufferedObjElements.length then
                      ({ b with bufferedObjElements := b.bufferedObjElements ++ [fs],
                                elementCount := b.elementCount + 1 }, none)
                    else
                      match finishDetermine b with
                      | (b, some e) => (b, some e)
                      | (b, none) =>
                          match appendSubElements b fs with
                          | (b, some e) => (b, some e)
                          | (b, none) =>
                              ({ b with elementCount := b.elementCount + 1 }, none)
          | .subObjAppending =>
              match appendSubElements b fs with
              | (b, some e) => (b, some e)
              | (b, none) => ({ b with elementCount := b.elementCount + 1 }, none)
    | _ => scalarAppend b v

/-- `BSONColumnBuilder::skip`. -/
def skipB (b : Builder) : Builder :=
  let b := { b with elementCount := b.elementCount + 1 }
  match b.mode with
  | .regular =>
      let c := encSkip false ⟨b.state, b.buf, []⟩
      { b with state := c.st, buf := c.buf }
  | .subObjDeterminingReference =>
      { b with bufferedObjElements := b.bufferedObjElements ++ [[]] }
  | .subObjAppending =>
      { b with subobj := b.subobj.map (encSkip true) }

/-- The four header bytes written by `finalize` (`DataView.write` of the
element count as a little-endian u32 at offset 0). -/
def writeHeader (bs : List UInt8) (n : Nat) : List UInt8 :=
  let h := leBytes 4 n
  (((bs.set 0 (h.getD 0 0)).set 1 (h.getD 1 0)).set 2 (h.getD 2 0)).set 3 (h.getD 3 0)

/-- `BSONColumnBuilder::finalize`: flush (regular state or sub-object
mode), append the EOO terminator, patch the element count. -/
def finalizeB (b : Builder) : List UInt8 × Option BErr :=
  match (if b.mode == .regular then
           let c := encFlush false ⟨b.state, b.buf, []⟩
           ({ b with state := c.st, buf := c.buf }, (none : Option BErr))
         else flushSubObjMode b) with
  | (_, some e) => ([], some e)
  | (b, none) => (writeHeader (b.buf ++ [0]) b.elementCount, none)

/-- A user interaction: one `append` or one `skip` call. -/
inductive Op where
  | app (v : BVal)
  | skp

/-- Run one user call. -/
def runOp (b : Builder) : Op → Builder × Option BErr
  | .app v => appendB b v
  | .skp => (skipB b, none)

/-- Run a sequence of user calls, stopping at the first error. -/
def runOps (b : Builder) : List Op → Builder × Option BErr
  | [] => (b, none)
  | op :: rest =>
      match runOp b op with
      | (b, some e) => (b, some e)
      | (b, none) => runOps b rest

/-! ### Derived notions and concrete instances used by the claims -/

/-- A call fed directly to one `EncodingState` (append, skip, or the
flush that `finalize` and mode changes trigger). -/
inductive EncOp where
  | app (v : BVal)
  | skp
  | fl

/-- Run one encoder call. -/
def runEnc1 (w : Bool) (c : EncCtx) : EncOp → EncCtx
  | .app v => encAppend w c v
  | .skp => encSkip w c
  | .fl => encFlush w c

/-- Run a sequence of encoder calls. -/
def runEnc (w : Bool) (c : EncCtx) : List EncOp → EncCtx
  | [] => c
  | op :: rest => runEnc w (runEnc1 w c op) rest

/-- A fresh encoder writing from the start of an empty buffer. -/
def EncCtx.init0 : EncCtx := ⟨EncState.init, [], []⟩

/-- Grammar of a well-formed encoder output stream: a sequence of
literals and Simple-8b runs, where a run consists of a control byte with
upper nibble 0x8 and lower nibble `n`, followed by exactly `8 * (n + 1)`
block bytes — that is, the lower nibble plus one equals the number of
8-byte blocks before the next literal, control byte or the end. -/
inductive BodyWF : List UInt8 → Prop where
  | nil : BodyWF []
  | lit (v : BVal) (rest : List UInt8) (h : BodyWF rest) : BodyWF (litBytes v ++ rest)
  | run (n : Nat) (blocks rest : List UInt8) (hn : n ≤ 15)
      (hb : blocks.length = 8 * (n + 1)) (h : BodyWF rest) :
      BodyWF (UInt8.ofNat (0x80 + n) :: (blocks ++ rest))

/-- The finalized output of appending the Int32 element x:5 seventeen
times. -/
def out17 : List UInt8 :=
  (finalizeB (runOps Builder.init (List.replicate 17 (Op.app (BVal.i32 5)))).1).1

/-- The builder state after one literal append of Int32 5 followed by a
run of pending zero deltas `p` with element count `k` (used to step
through the seventeen-append scenario). -/
def b17 (p : List Slot) (k : Nat) : Builder :=
  { buf := [0, 0, 0, 0, 0x10, 0, 5, 0, 0, 0],
    state := { prev := .i32 5, prevDelta := 0, storeWith128 := false,
               controlByteOffset := none, prevEncoded64 := 0, prevEncoded128 := 0,
               scaleIndex := kMemoryAsInteger, s8b64 := ⟨p⟩, s8b128 := ⟨[]⟩ },
    mode := .regular, referenceSubObj := [], bufferedObjElements := [], subobj := [],
    elementCount := k }

/-- The object a:1, b:2, c:3. -/
def objABC : List Field := [("a", BVal.i32 1), ("b", BVal.i32 2), ("c", BVal.i32 3)]

/-- The object b:9, a:8 — field order incompatible with `objABC` and not
mergeable into it. -/
def objBA : List Field := [("b", BVal.i32 9), ("a", BVal.i32 8)]

/-- The object a:5, b:6, c:7 — compatible with `objABC`. -/
def objABC2 : List Field := [("a", BVal.i32 5), ("b", BVal.i32 6), ("c", BVal.i32 7)]

/-- A builder that has entered the determining-reference phase with
`objABC` as reference. -/
def detABC : Builder := (appendB Builder.init (BVal.obj objABC)).1

/-- The single-field object a:1. -/
def objA : List Field := [("a", BVal.i32 1)]

/-- The object b:MinKey, whose only leaf is MinKey. -/
def objBmin : List Field := [("b", BVal.minKey)]

/-- A builder in the determining-reference phase with `objA` as
reference. -/
def detA : Builder := (appendB Builder.init (BVal.obj objA)).1

/-- A regular-mode builder with a pending zero delta. -/
def twoInts : Builder := (runOps Builder.init [Op.app (BVal.i32 5), Op.app (BVal.i32 5)]).1

/-- A multi-mode interaction: four compatible objects (entering and using
interleaved mode), then a scalar (flushing it) and a skip. -/
def mixedOps : List Op :=
  [Op.app (BVal.obj [("a", BVal.i32 1), ("b", BVal.i32 2)]),
   Op.app (BVal.obj [("a", BVal.i32 2), ("b", BVal.i32 3)]),
   Op.app (BVal.obj [("a", BVal.i32 3), ("b", BVal.i32 4)]),
   Op.app (BVal.obj [("a", BVal.i32 4), ("b", BVal.i32 5)]),
   Op.app (BVal.i64 42), Op.skp]

/-- Sixty-two equal Int32 appends: enough zero deltas to force a block
emission and leave an open Simple-8b run. -/
def manyZeroDeltas : List EncOp :=
  List.replicate 62 (EncOp.app (BVal.i32 0))

/-- The run invariant of one encoder output buffer: either no run is
open and the whole buffer is a well-formed body, or the recorded control
byte sits right after a well-formed closed body, its lower nibble `n` is
at most 14, and exactly `8 * (n + 1)` block bytes follow it. -/
def EncInvP (scale : Nat) (off : Option Nat) (buf : List UInt8) : Prop :=
  scale = kMemoryAsInteger ∧
  ((off = none ∧ BodyWF buf) ∨
    ∃ o closed blocks n, off = some o ∧ BodyWF closed ∧
      o = closed.length ∧ n ≤ 14 ∧ blocks.length = 8 * (n + 1) ∧
      buf = closed ++ UInt8.ofNat (0x80 + n) :: blocks)

/-- The invariant of an encoder context reads only the scale index, the
control byte offset and the buffer. -/
def EncInv (c : EncCtx) : Prop :=
  EncInvP c.st.scaleIndex c.st.controlByteOffset c.buf

/-- Two equal Int32 appends then a flush: leaves an open run of one
block after the opening literal. -/
def threeEncOps : List EncOp :=
  [EncOp.app (BVal.i32 0), EncOp.app (BVal.i32 0), EncOp.fl]

/-! ## Claims -/

/-- C10: a builder on which no append or skip call was ever made
finalizes to exactly five bytes: four 0x00 bytes (element count zero as a
little-endian u32) immediately followed by the 0x00 EOO terminator, with
an empty body. -/
theorem c10_empty_finalize : finalizeB Builder.init = ([0, 0, 0, 0, 0], none) := by
  rfl

/-- Running calls in two stages composes, stopping at the first
error. -/
theorem runOps_append (b : Builder) (l1 l2 : List Op) :
    runOps b (l1 ++ l2) =
      (match runOps b l1 with
       | (b2, none) => runOps b2 l2
       | (b2, some e) => (b2, some e)) := by
  induction l1 generalizing b with
  | nil => simp [runOps]
  | cons op rest ih =>
      rw [List.cons_append, runOps, runOps]
      cases hop : runOp b op with
      | mk b2 e =>
          cases e with
          | none => simpa using ih b2
          | some err => simp

/-- Stage 1 of the seventeen-append scenario: the first five appends. -/
theorem out17_stage1 :
    runOps Builder.init (List.replicate 5 (Op.app (BVal.i32 5))) =
      (b17 (List.replicate 4 (some 0)) 5, none) := by
  rfl

/-- Stage 2: four more zero deltas. -/
theorem out17_stage2 :
    runOps (b17 (List.replicate 4 (some 0)) 5) (List.replicate 4 (Op.app (BVal.i32 5))) =
      (b17 (List.replicate 8 (some 0)) 9, none) := by
  rfl

/-- Stage 3: four more zero deltas. -/
theorem out17_stage3 :
    runOps (b17 (List.replicate 8 (some 0)) 9) (List.replicate 4 (Op.app (BVal.i32 5))) =
      (b17 (List.replicate 12 (some 0)) 13, none) := by
  rfl

/-- Stage 4: the last four zero deltas. -/
theorem out17_stage4 :
    runOps (b17 (List.replicate 12 (some 0)) 13) (List.replicate 4 (Op.app (BVal.i32 5))) =
      (b17 (List.replicate 16 (some 0)) 17, none) := by
  rfl

/-- The byte-for-byte output of the seventeen-append scenario. -/
theorem out17_eq :
    out17 = [17, 0, 0, 0, 0x10, 0, 5, 0, 0, 0, 0x80, 16, 0, 0, 0, 0, 0, 0, 0, 0] := by
  have hsplit : List.replicate 17 (Op.app (BVal.i32 5)) =
      List.replicate 5 (Op.app (BVal.i32 5)) ++
        (List.replicate 4 (Op.app (BVal.i32 5)) ++
          (List.replicate 4 (Op.app (BVal.i32 5)) ++
            List.replicate 4 (Op.app (BVal.i32 5)))) := by
    simp [← List.replicate_add]
  unfold out17
  rw [hsplit, runOps_append, out17_stage1]
  simp only []
  rw [runOps_append, out17_stage2]
  simp only []
  rw [runOps_append, out17_stage3]
  simp only []
  rw [out17_stage4]
  rfl

/-- C8 counterexample: appending the Int32 element x:5 seventeen times
and finalizing yields a 20-byte output that contains no 0x8F byte at all,
so the claimed layout (a control byte 0x8F followed by one block, then a
second run) is not produced; the claimed layout would also need 29 bytes,
and 17 rather than the actual 16 deltas. -/
theorem c8_counterexample : out17.length = 20 ∧ (0x8F : UInt8) ∉ out17 := by
  rw [out17_eq]
  decide

/-- C8 amended: appending x:5 seventeen times gives element count 17, one
Int32 literal with value 5, then a single run: control byte 0x80 (lower
nibble 0, so exactly one 8-byte Simple-8b block follows, holding all 16
zero deltas, which stay pending until the flush in finalize), and the
EOO terminator appended by finalize. -/
theorem c8_amended_layout :
    out17.take 4 = [17, 0, 0, 0] ∧
    (out17.drop 4).take 6 = [0x10, 0, 5, 0, 0, 0] ∧
    out17.getD 10 0 = 0x80 ∧
    out17.length = 20 ∧
    out17.getLast? = some 0 := by
  rw [out17_eq]
  decide

/-- C3 counterexample: with reference a:1 in the determining phase,
appending the object b:MinKey — whose only leaf is MinKey — succeeds
without any validation error, because the lock-step traversal never
visits the unmatched leaf and the merge then absorbs it. -/
theorem c3_counterexample :
    ((missingLeaves objBmin).any fun p => isMinMaxV p.1) = true ∧
    (appendB detA (BVal.obj objBmin)).2 = none := by
  constructor
  · decide
  · rfl

/-- C7 counterexample: with reference a,b,c and one buffered object, the
object b:9,a:8 has an incompatible traversal that visits 3 reference
leaves, and 3 × 2 ≥ 1, yet the builder does not keep buffering: the merge
fails, the buffered object is flushed out (the buffer grows) and a new
determining phase starts with only the new object buffered. -/
theorem c7_counterexample :
    detABC.mode = Mode.subObjDeterminingReference ∧
    (traverseLockStep detABC.referenceSubObj objBA).1 = false ∧
    (traverseLockStep detABC.referenceSubObj objBA).2.length = 3 ∧
    detABC.bufferedObjElements.length = 1 ∧
    (appendB detABC (BVal.obj objBA)).2 = none ∧
    (appendB detABC (BVal.obj objBA)).1.bufferedObjElements = [objBA] ∧
    detABC.buf.length < (appendB detABC (BVal.obj objBA)).1.buf.length := by
  refine ⟨rfl, ?_, ?_, ?_, rfl, rfl, ?_⟩ <;> decide

/-- C3 amended: a scalar MinKey or MaxKey append fails with a validation
error and leaves the builder untouched (the check precedes any state
change); an object append validates leaves only where the mode's
traversal visits them — the determining phase can silently accept an
object with an unmatched MinKey leaf, and the regular-to-determining
transition flushes encoder state before its validation can fail. -/
theorem c3_validation :
    (∀ (b : Builder) (v : BVal), isMinMaxV v = true →
       appendB b v = (b, some BErr.validation)) ∧
    (appendB detA (BVal.obj objBmin)).2 = none ∧
    (appendB twoInts (BVal.obj [("m", BVal.minKey)])).2 = some BErr.validation ∧
    twoInts.buf.length < (appendB twoInts (BVal.obj [("m", BVal.minKey)])).1.buf.length := by
  refine ⟨?_, rfl, rfl, by decide⟩
  intro b v hv
  simp [appendB, hv]

/-- Witness for the C3 theorem at a concrete input. -/
theorem c3_validation_witness :
    isMinMaxV BVal.minKey = true ∧
    appendB Builder.init BVal.minKey = (Builder.init, some BErr.validation) :=
  ⟨rfl, c3_validation.1 Builder.init BVal.minKey rfl⟩

/-- Flushing a fresh encoding state writes nothing and records
nothing. -/
theorem encFlush_init (w : Bool) (buf : List UInt8) (recs : List (Nat × Nat)) :
    encFlush w ⟨EncState.init, buf, recs⟩ = ⟨EncState.init, buf, recs⟩ := by
  rfl

/-- `flushSubObjNoFinish` only appends to the main buffer and preserves
the regular encoding state. -/
theorem flushSubObjNoFinish_buf (b : Builder) :
    ∃ t, (flushSubObjNoFinish b).buf = b.buf ++ t ∧
      (flushSubObjNoFinish b).state = b.state ∧
      (flushSubObjNoFinish b).elementCount = b.elementCount := by
  unfold flushSubObjNoFinish
  exact ⟨_, List.append_assoc _ _ _, rfl, rfl⟩

/-- `_startDetermineSubObjReference` from a fresh regular state leaves
the buffer unchanged (the flush has nothing pending) whether or not the
leaf validation fails, and keeps the state fresh. -/
theorem startDetermine_init (b : Builder) (fs : List Field) (hs : b.state = EncState.init) :
    (startDetermine b fs).1.buf = b.buf ∧
      (startDetermine b fs).1.state = EncState.init ∧
      (startDetermine b fs).1.elementCount = b.elementCount := by
  unfold startDetermine
  rw [hs, encFlush_init]
  split <;> exact ⟨rfl, rfl, rfl⟩

/-- `_appendSubElements` from a fresh regular state only appends to the
main buffer, keeps the state fresh and the element count unchanged. -/
theorem appendSubElements_buf (b : Builder) (fs : List Field) (hs : b.state = EncState.init) :
    ∃ t, (appendSubElements b fs).1.buf = b.buf ++ t ∧
      (appendSubElements b fs).1.state = EncState.init ∧
      (appendSubElements b fs).1.elementCount = b.elementCount := by
  unfold appendSubElements
  rcases htr : traverseLockStep b.referenceSubObj fs with ⟨compat, vis⟩
  simp only [htr]
  split
  · exact ⟨[], by simp, by simp [hs], rfl⟩
  · split
    · obtain ⟨t0, ht0, hst0, hec0⟩ := flushSubObjNoFinish_buf b
      have h3 := startDetermine_init (flushSubObjNoFinish b) fs (by rw [hst0, hs])
      exact ⟨t0, by rw [h3.1, ht0], h3.2.1, by rw [h3.2.2, hec0]⟩
    · split
      · exact ⟨[], by simp, by simp [hs], rfl⟩
      · exact ⟨[], by simp, by simp [hs], rfl⟩

/-- The replay loop only appends to the main buffer and keeps a fresh
regular state. -/
theorem replayBuffered_buf (objs : List (List Field)) :
    ∀ (b : Builder), b.state = EncState.init →
      ∃ t, (replayBuffered b objs).1.buf = b.buf ++ t ∧
        (replayBuffered b objs).1.state = EncState.init ∧
        (replayBuffered b objs).1.elementCount = b.elementCount := by
  induction objs with
  | nil => intro b hs; exact ⟨[], by simp [replayBuffered], by simp [replayBuffered, hs], rfl⟩
  | cons o rest ih =>
      intro b hs
      unfold replayBuffered
      obtain ⟨t1, ht1, hst1, hec1⟩ := appendSubElements_buf b o hs
      cases hres : appendSubElements b o with
      | mk b2 e =>
          rw [hres] at ht1 hst1 hec1
          cases e with
          | some err => exact ⟨t1, ht1, hst1, hec1⟩
          | none =>
              obtain ⟨t2, ht2, hst2, hec2⟩ := ih b2 hst1
              exact ⟨t1 ++ t2, by rw [ht2, ht1, List.append_assoc], hst2, by rw [hec2, hec1]⟩

/-- `_finishDetermineSubObjReference` writes the interleaved-start byte
and the reference document right at the former end of the buffer, then
only appends, keeping the fresh regular state. -/
theorem finishDetermine_buf (b : Builder) (hs : b.state = EncState.init) :
    ∃ t, (finishDetermine b).1.buf =
        b.buf ++ kInterleavedStartControlByte :: objBytes b.referenceSubObj ++ t ∧
      (finishDetermine b).1.state = EncState.init ∧
      (finishDetermine b).1.elementCount = b.elementCount := by
  unfold finishDetermine
  rcases htr : traverseLockStep b.referenceSubObj (b.bufferedObjElements.headD []) with
    ⟨compat, vis⟩
  simp only [htr]
  split
  · refine ⟨[], ?_, ?_, rfl⟩
    · show (finishSeed b vis).buf = _
      simp [finishSeed]
    · exact hs
  · obtain ⟨t, ht, hst, hec⟩ := replayBuffered_buf b.bufferedObjElements.tail
      { finishSeed b vis with mode := Mode.subObjAppending } (by simp [finishSeed, hs])
    refine ⟨t, ?_, hst, by rw [hec]; simp [finishSeed]⟩
    rw [ht]; simp [finishSeed]

/-- Taking exactly the length of the first part of a concatenation
returns it. -/
theorem take_prefix_append {α : Type} (x t : List α) :
    (x ++ t).take x.length = x := by
  induction x with
  | nil => rfl
  | cons a r ih => simpa using ih

/-- A successful replay leaves the buffered-object queue empty. -/
theorem replayBuffered_clear (objs : List (List Field)) :
    ∀ (b : Builder) (b2 : Builder), replayBuffered b objs = (b2, none) →
      b2.bufferedObjElements = [] := by
  induction objs with
  | nil =>
      intro b b2 h
      simp only [replayBuffered] at h
      cases h
      rfl
  | cons o rest ih =>
      intro b b2 h
      unfold replayBuffered at h
      cases hres : appendSubElements b o with
      | mk b3 e =>
          rw [hres] at h
          cases e with
          | some err => simp at h
          | none => exact ih b3 b2 h

/-- A successful `_finishDetermineSubObjReference` leaves the
buffered-object queue empty. -/
theorem finishDetermine_clear (b b2 : Builder)
    (h : finishDetermine b = (b2, none)) : b2.bufferedObjElements = [] := by
  unfold finishDetermine at h
  rcases htr : traverseLockStep b.referenceSubObj (b.bufferedObjElements.headD []) with
    ⟨compat, vis⟩
  rw [htr] at h
  simp only [] at h
  split at h
  · simp at h
  · exact replayBuffered_clear _ _ _ h

/-- A successful `_flushSubObjMode` from the determining phase leaves the
buffered-object queue empty. -/
theorem flushSubObjMode_clear (b b2 : Builder)
    (hm : b.mode = Mode.subObjDeterminingReference)
    (h : flushSubObjMode b = (b2, none)) : b2.bufferedObjElements = [] := by
  unfold flushSubObjMode at h
  rw [hm] at h
  simp only [beq_self_eq_true, if_true] at h
  cases hfin : finishDetermine b with
  | mk b3 e =>
      rw [hfin] at h
      cases e with
      | some err => simp at h
      | none =>
          simp only [] at h
          cases h
          have := finishDetermine_clear b b3 hfin
          simp [flushSubObjNoFinish, this]

/-- C7 amended: in the determining phase, for a non-empty appended object
that raises no validation error, (i) when the traversal is compatible or
the merge succeeds, the builder keeps buffering exactly when
leafCount × 2 ≥ bufferedCount — recording the object and staying put —
and otherwise finalizes the reference, writing the interleaved start byte
and the (possibly merged) reference document at the former end of the
buffer; (ii) when the merge fails, the sub-object mode is flushed and a
fresh determining phase starts with the object as reference regardless of
the heuristic. -/
theorem c7_heuristic (b : Builder) (fs : List Field) (compat : Bool)
    (vis : List (BVal × Option BVal))
    (hm : b.mode = Mode.subObjDeterminingReference)
    (hne : fs.isEmpty = false)
    (htr : traverseLockStep b.referenceSubObj fs = (compat, vis))
    (hval : (vis.any fun p => isMinMaxOpt p.2) = false) :
    (∀ merged,
       (if compat then some b.referenceSubObj else mergeObj b.referenceSubObj fs) =
         some merged →
       ((vis.length * 2 ≥ b.bufferedObjElements.length →
           appendB b (BVal.obj fs) =
             ({ b with referenceSubObj := merged,
                       bufferedObjElements := b.bufferedObjElements ++ [fs],
                       elementCount := b.elementCount + 1 }, none)) ∧
        (¬ vis.length * 2 ≥ b.bufferedObjElements.length → b.state = EncState.init →
           (appendB b (BVal.obj fs)).1.buf.take
               (b.buf ++ kInterleavedStartControlByte :: objBytes merged).length =
             b.buf ++ kInterleavedStartControlByte :: objBytes merged))) ∧
    (compat = false → mergeObj b.referenceSubObj fs = none →
       ∀ b2 e, appendB b (BVal.obj fs) = (b2, e) → e = none →
         b2.mode = Mode.subObjDeterminingReference ∧
         b2.bufferedObjElements = [fs] ∧ b2.referenceSubObj = fs) := by
  have hred : appendB b (BVal.obj fs) =
      (match (if compat then some b.referenceSubObj else mergeObj b.referenceSubObj fs) with
       | none =>
           (match flushSubObjMode b with
            | (b, some e) => (b, some e)
            | (b, none) =>
                ({ b with referenceSubObj := fs,
                          bufferedObjElements := b.bufferedObjElements ++ [fs],
                          mode := .subObjDeterminingReference,
                          elementCount := b.elementCount + 1 }, none))
       | some merged =>
           let b := { b with referenceSubObj := merged }
           if vis.length * 2 ≥ b.bufferedObjElements.length then
             ({ b with bufferedObjElements := b.bufferedObjElements ++ [fs],
                       elementCount := b.elementCount + 1 }, none)
           else
             match finishDetermine b with
             | (b, some e) => (b, some e)
             | (b, none) =>
                 match appendSubElements b fs with
                 | (b, some e) => (b, some e)
                 | (b, none) => ({ b with elementCount := b.elementCount + 1 }, none)) := by
    unfold appendB
    simp only [isMinMaxV, Bool.false_eq_true, if_false, hne, hm, htr, hval]
  constructor
  · intro merged hmerged
    rw [hmerged] at hred
    simp only [] at hred
    constructor
    · intro hkeep
      rw [hred]
      rw [if_pos hkeep]
    · intro hkeep hs
      rw [hred, if_neg hkeep]
      have hstate2 : ({ b with referenceSubObj := merged } : Builder).state = EncState.init := hs
      obtain ⟨t, ht, hst, _⟩ := finishDetermine_buf { b with referenceSubObj := merged } hstate2
      cases hfin : finishDetermine { b with referenceSubObj := merged } with
      | mk b3 e =>
          rw [hfin] at ht hst
          simp only [] at ht hst
          cases e with
          | some err =>
              have hshape : b3.buf =
                  (b.buf ++ kInterleavedStartControlByte :: objBytes merged) ++ t := by
                rw [ht]
              show b3.buf.take
                  (b.buf ++ kInterleavedStartControlByte :: objBytes merged).length = _
              rw [hshape, take_prefix_append]
          | none =>
              dsimp only
              obtain ⟨t2, ht2, _, _⟩ := appendSubElements_buf b3 fs hst
              cases happ : appendSubElements b3 fs with
              | mk b4 e2 =>
                  rw [happ] at ht2
                  simp only [] at ht2
                  cases e2 <;>
                  · have hshape : b4.buf =
                        (b.buf ++ kInterleavedStartControlByte :: objBytes merged) ++ (t ++ t2) := by
                      rw [ht2, ht]
                      simp
                    show b4.buf.take
                        (b.buf ++ kInterleavedStartControlByte :: objBytes merged).length = _
                    rw [hshape, take_prefix_append]
  · intro hcompat hmerge b2 e happ hnone
    rw [hcompat] at hred
    simp only [Bool.false_eq_true, if_false] at hred
    rw [hmerge] at hred
    simp only [] at hred
    cases hflush : flushSubObjMode b with
    | mk b3 e3 =>
        rw [hflush] at hred
        cases e3 with
        | some err =>
            rw [happ] at hred
            cases hred
            exact absurd hnone (by simp)
        | none =>
            rw [happ] at hred
            cases hred
            have := flushSubObjMode_clear b b3 hm hflush
            exact ⟨rfl, by simp [this], rfl⟩

/-- Witness for the C7 theorem: a compatible third object with the
heuristic satisfied is simply buffered. -/
theorem c7_heuristic_witness :
    detABC.mode = Mode.subObjDeterminingReference ∧
    objABC2.isEmpty = false ∧
    appendB detABC (BVal.obj objABC2) =
      ({ detABC with referenceSubObj := detABC.referenceSubObj,
                     bufferedObjElements := detABC.bufferedObjElements ++ [objABC2],
                     elementCount := detABC.elementCount + 1 }, none) := by
  refine ⟨rfl, rfl, ?_⟩
  exact ((c7_heuristic detABC objABC2 true
      (traverseLockStep detABC.referenceSubObj objABC2).2 rfl rfl rfl rfl).1
      detABC.referenceSubObj rfl).1 (by decide)

/-- A flushed Simple-8b builder has nothing pending. -/
theorem s8bFlush_pending (s : S8b) : ((s8bFlush s).1).pending = [] := by
  unfold s8bFlush
  split
  · next h => simpa using h
  · rfl

/-- The Simple-8b sink changes only the control-byte offset of the
encoder state, and never shrinks the buffer. -/
theorem writeBlock_preserve (w : Bool) (c : EncCtx) (blk : List Slot) :
    (writeBlock w c blk).st.prev = c.st.prev ∧
    (writeBlock w c blk).st.s8b64 = c.st.s8b64 ∧
    (writeBlock w c blk).st.s8b128 = c.st.s8b128 ∧
    (writeBlock w c blk).st.scaleIndex = c.st.scaleIndex ∧
    (writeBlock w c blk).st.prevDelta = c.st.prevDelta ∧
    (writeBlock w c blk).st.storeWith128 = c.st.storeWith128 ∧
    (writeBlock w c blk).st.prevEncoded64 = c.st.prevEncoded64 ∧
    (writeBlock w c blk).st.prevEncoded128 = c.st.prevEncoded128 ∧
    c.buf.length ≤ (writeBlock w c blk).buf.length := by
  unfold writeBlock incrementSimple8bCount
  cases hoff : c.st.controlByteOffset with
  | none =>
      refine ⟨rfl, rfl, rfl, rfl, rfl, rfl, rfl, rfl, ?_⟩
      simp
  | some o =>
      dsimp only
      split
      · refine ⟨rfl, rfl, rfl, rfl, rfl, rfl, rfl, rfl, ?_⟩
        simp
      · split
        · refine ⟨rfl, rfl, rfl, rfl, rfl, rfl, rfl, rfl, ?_⟩
          simp
        · refine ⟨rfl, rfl, rfl, rfl, rfl, rfl, rfl, rfl, ?_⟩
          simp

/-- Folding emitted blocks through the sink keeps every state field but
the control-byte offset, and never shrinks the buffer. -/
theorem writeBlocks_preserve (w : Bool) (bls : List (List Slot)) :
    ∀ (c : EncCtx),
      (writeBlocks w c bls).st.prev = c.st.prev ∧
      (writeBlocks w c bls).st.s8b64 = c.st.s8b64 ∧
      (writeBlocks w c bls).st.s8b128 = c.st.s8b128 ∧
      (writeBlocks w c bls).st.scaleIndex = c.st.scaleIndex ∧
      (writeBlocks w c bls).st.prevDelta = c.st.prevDelta ∧
      (writeBlocks w c bls).st.storeWith128 = c.st.storeWith128 ∧
      (writeBlocks w c bls).st.prevEncoded64 = c.st.prevEncoded64 ∧
      (writeBlocks w c bls).st.prevEncoded128 = c.st.prevEncoded128 ∧
      c.buf.length ≤ (writeBlocks w c bls).buf.length := by
  induction bls with
  | nil => intro c; exact ⟨rfl, rfl, rfl, rfl, rfl, rfl, rfl, rfl, le_refl _⟩
  | cons blk rest ih =>
      intro c
      have h1 := writeBlock_preserve w c blk
      have h2 := ih (writeBlock w c blk)
      unfold writeBlocks at h2 ⊢
      simp only [List.foldl_cons]
      exact ⟨h2.1.trans h1.1, h2.2.1.trans h1.2.1, h2.2.2.1.trans h1.2.2.1,
        h2.2.2.2.1.trans h1.2.2.2.1, h2.2.2.2.2.1.trans h1.2.2.2.2.1,
        h2.2.2.2.2.2.1.trans h1.2.2.2.2.2.1, h2.2.2.2.2.2.2.1.trans h1.2.2.2.2.2.2.1,
        h2.2.2.2.2.2.2.2.1.trans h1.2.2.2.2.2.2.2.1,
        h1.2.2.2.2.2.2.2.2.trans h2.2.2.2.2.2.2.2.2⟩

/-- `_initializeFromPrevious` touches only `_storeWith128` and encoded
baselines. -/
theorem initFromPrevious_fields (st : EncState) :
    (initFromPrevious st).prev = st.prev ∧
    (initFromPrevious st).scaleIndex = st.scaleIndex ∧
    (initFromPrevious st).prevDelta = st.prevDelta ∧
    (initFromPrevious st).controlByteOffset = st.controlByteOffset ∧
    (initFromPrevious st).s8b64 = st.s8b64 ∧
    (initFromPrevious st).s8b128 = st.s8b128 := by
  unfold initFromPrevious
  cases hp : st.prev <;> simp [hp]

/-- `_writeLiteralFromPrevious` appends exactly the literal image of the
previous value, closes the run, and resets the derived state. -/
theorem writeLiteral_facts (w : Bool) (c : EncCtx) :
    (writeLiteralFromPrevious w c).st.prev = c.st.prev ∧
    (writeLiteralFromPrevious w c).st.scaleIndex = kMemoryAsInteger ∧
    (writeLiteralFromPrevious w c).st.prevDelta = 0 ∧
    (writeLiteralFromPrevious w c).st.controlByteOffset = none ∧
    (writeLiteralFromPrevious w c).st.s8b64 = c.st.s8b64 ∧
    (writeLiteralFromPrevious w c).st.s8b128 = c.st.s8b128 ∧
    (writeLiteralFromPrevious w c).buf = c.buf ++ litBytes c.st.prev := by
  unfold writeLiteralFromPrevious
  have h := initFromPrevious_fields
    { c.st with controlByteOffset := none, scaleIndex := kMemoryAsInteger, prevDelta := 0 }
  exact ⟨h.1, h.2.1, h.2.2.1, h.2.2.2.1, h.2.2.2.2.1, h.2.2.2.2.2, rfl⟩

/-- C4: whenever `EncodingState::append` sees a value whose type differs
from the stored previous element's type (or there is no previous element,
the EOO sentinel), both Simple-8b builders are flushed, the value is
written as an uncompressed literal (type byte, empty-name terminator,
payload — no field name), the derived state is reset (scale index to
`kMemoryAsInteger`, `_prevDelta` to 0, no open control byte), the value
becomes the new previous, and no delta is attempted (both pending blocks
end empty and the buffer gains only flushed blocks plus the literal). -/
theorem c4_type_change (w : Bool) (c : EncCtx) (v : BVal)
    (h : c.st.prev.btype ≠ v.btype) :
    (encAppend w c v).st.prev = v ∧
    (encAppend w c v).st.scaleIndex = kMemoryAsInteger ∧
    (encAppend w c v).st.prevDelta = 0 ∧
    (encAppend w c v).st.controlByteOffset = none ∧
    (encAppend w c v).st.s8b64.pending = [] ∧
    (encAppend w c v).st.s8b128.pending = [] ∧
    ∃ mid, (encAppend w c v).buf = mid ++ litBytes v ∧ c.buf.length ≤ mid.length := by
  unfold encAppend
  rw [if_pos h]
  dsimp only
  cases hf1 : s8bFlush c.st.s8b128 with
  | mk s128 bl128 =>
      dsimp only
      have hw1 := writeBlocks_preserve w bl128
        ⟨{ c.st with prev := v, s8b128 := s128 }, c.buf, c.recs⟩
      cases hc1 : writeBlocks w ⟨{ c.st with prev := v, s8b128 := s128 }, c.buf, c.recs⟩ bl128 with
      | mk st1 buf1 recs1 =>
          rw [hc1] at hw1
          cases hf2 : s8bFlush st1.s8b64 with
          | mk s64 bl64 =>
              dsimp only
              have hw2 := writeBlocks_preserve w bl64 ⟨{ st1 with s8b64 := s64 }, buf1, recs1⟩
              cases hc2 : writeBlocks w ⟨{ st1 with s8b64 := s64 }, buf1, recs1⟩ bl64 with
              | mk st2 buf2 recs2 =>
                  rw [hc2] at hw2
                  have hl := writeLiteral_facts w ⟨st2, buf2, recs2⟩
                  have hprev2 : st2.prev = v := by
                    rw [hw2.1, hw1.1]
                  have hs64 : st2.s8b64 = s64 := hw2.2.1
                  have hs128 : st2.s8b128 = st1.s8b128 := hw2.2.2.1
                  have hs128b : st1.s8b128 = s128 := hw1.2.2.1
                  refine ⟨?_, hl.2.1, hl.2.2.1, hl.2.2.2.1, ?_, ?_, ?_⟩
                  · rw [hl.1, hprev2]
                  · rw [hl.2.2.2.2.1, hs64]
                    have : s64 = (s8bFlush st1.s8b64).1 := by rw [hf2]
                    rw [this, s8bFlush_pending]
                  · rw [hl.2.2.2.2.2.1, hs128, hs128b]
                    have : s128 = (s8bFlush c.st.s8b128).1 := by rw [hf1]
                    rw [this, s8bFlush_pending]
                  · refine ⟨buf2, ?_, ?_⟩
                    · rw [hl.2.2.2.2.2.2, hprev2]
                    · calc c.buf.length ≤ buf1.length := hw1.2.2.2.2.2.2.2.2
                        _ ≤ buf2.length := hw2.2.2.2.2.2.2.2.2

/-- Witness for the C4 theorem: the first append on a fresh encoder (the
previous element is the EOO sentinel) writes a literal. -/
theorem c4_type_change_witness :
    EncCtx.init0.st.prev.btype ≠ (BVal.i32 7).btype ∧
    ((encAppend false EncCtx.init0 (BVal.i32 7)).st.prev = BVal.i32 7 ∧
     (encAppend false EncCtx.init0 (BVal.i32 7)).st.scaleIndex = kMemoryAsInteger ∧
     (encAppend false EncCtx.init0 (BVal.i32 7)).st.prevDelta = 0 ∧
     (encAppend false EncCtx.init0 (BVal.i32 7)).st.controlByteOffset = none ∧
     (encAppend false EncCtx.init0 (BVal.i32 7)).st.s8b64.pending = [] ∧
     (encAppend false EncCtx.init0 (BVal.i32 7)).st.s8b128.pending = [] ∧
     ∃ mid, (encAppend false EncCtx.init0 (BVal.i32 7)).buf = mid ++ litBytes (BVal.i32 7) ∧
       EncCtx.init0.buf.length ≤ mid.length) :=
  ⟨by decide, c4_type_change false EncCtx.init0 (BVal.i32 7) (by decide)⟩

/-- Self lock-step traversal at adequate fuel: the iterator is consumed
exactly, the walk succeeds, and the callback fires once per non-Object
leaf. -/
theorem tlsLoopF_self : ∀ (fuel : Nat) (fs : List Field), sizeF fs < fuel →
    (tlsLoopF fuel fs fs).1 = [] ∧ (tlsLoopF fuel fs fs).2.1 = true ∧
      (tlsLoopF fuel fs fs).2.2.length = leavesF fs := by
  intro fuel
  induction fuel with
  | zero => intro fs h; omega
  | succ fuel ih =>
      intro fs h
      cases fs with
      | nil => simp [tlsLoopF, leavesF]
      | cons f rest =>
          obtain ⟨name, v⟩ := f
          simp only [sizeF, sizeV] at h
          cases v with
          | obj refObj =>
              rcases hin : tlsLoopF fuel refObj refObj with ⟨itI, okI, visI⟩
              have hI := ih refObj (by simp [sizeV] at h; omega)
              rw [hin] at hI
              obtain ⟨i1, i2, i3⟩ := hI
              rcases hrest : tlsLoopF fuel rest rest with ⟨it2, ok2, vis2⟩
              have hR := ih rest (by simp [sizeV] at h; omega)
              rw [hrest] at hR
              obtain ⟨r1, r2, r3⟩ := hR
              simp only [] at i1 i2 i3 r1 r2 r3
              subst i2
              subst r1
              subst r2
              simp [tlsLoopF, hin, hrest, leavesF, leavesV, i3, r3] <;> omega
          | i32 a =>
              rcases hrest : tlsLoopF fuel rest rest with ⟨it2, ok2, vis2⟩
              have hR := ih rest (by simp [sizeV] at h; omega)
              rw [hrest] at hR
              obtain ⟨r1, r2, r3⟩ := hR
              simp only [] at r1 r2 r3
              subst r1; subst r2
              simp [tlsLoopF, hrest, leavesF, leavesV, r3] <;> omega
          | i64 a =>
              rcases hrest : tlsLoopF fuel rest rest with ⟨it2, ok2, vis2⟩
              have hR := ih rest (by simp [sizeV] at h; omega)
              rw [hrest] at hR
              obtain ⟨r1, r2, r3⟩ := hR
              simp only [] at r1 r2 r3
              subst r1; subst r2
              simp [tlsLoopF, hrest, leavesF, leavesV, r3] <;> omega
          | bool a =>
              rcases hrest : tlsLoopF fuel rest rest with ⟨it2, ok2, vis2⟩
              have hR := ih rest (by simp [sizeV] at h; omega)
              rw [hrest] at hR
              obtain ⟨r1, r2, r3⟩ := hR
              simp only [] at r1 r2 r3
              subst r1; subst r2
              simp [tlsLoopF, hrest, leavesF, leavesV, r3] <;> omega
          | date a =>
              rcases hrest : tlsLoopF fuel rest rest with ⟨it2, ok2, vis2⟩
              have hR := ih rest (by simp [sizeV] at h; omega)
              rw [hrest] at hR
              obtain ⟨r1, r2, r3⟩ := hR
              simp only [] at r1 r2 r3
              subst r1; subst r2
              simp [tlsLoopF, hrest, leavesF, leavesV, r3] <;> omega
          | ts a =>
              rcases hrest : tlsLoopF fuel rest rest with ⟨it2, ok2, vis2⟩
              have hR := ih rest (by simp [sizeV] at h; omega)
              rw [hrest] at hR
              obtain ⟨r1, r2, r3⟩ := hR
              simp only [] at r1 r2 r3
              subst r1; subst r2
              simp [tlsLoopF, hrest, leavesF, leavesV, r3] <;> omega
          | oid a =>
              rcases hrest : tlsLoopF fuel rest rest with ⟨it2, ok2, vis2⟩
              have hR := ih rest (by simp [sizeV] at h; omega)
              rw [hrest] at hR
              obtain ⟨r1, r2, r3⟩ := hR
              simp only [] at r1 r2 r3
              subst r1; subst r2
              simp [tlsLoopF, hrest, leavesF, leavesV, r3] <;> omega
          | str a =>
              rcases hrest : tlsLoopF fuel rest rest with ⟨it2, ok2, vis2⟩
              have hR := ih rest (by simp [sizeV] at h; omega)
              rw [hrest] at hR
              obtain ⟨r1, r2, r3⟩ := hR
              simp only [] at r1 r2 r3
              subst r1; subst r2
              simp [tlsLoopF, hrest, leavesF, leavesV, r3] <;> omega
          | bin a b =>
              rcases hrest : tlsLoopF fuel rest rest with ⟨it2, ok2, vis2⟩
              have hR := ih rest (by simp [sizeV] at h; omega)
              rw [hrest] at hR
              obtain ⟨r1, r2, r3⟩ := hR
              simp only [] at r1 r2 r3
              subst r1; subst r2
              simp [tlsLoopF, hrest, leavesF, leavesV, r3] <;> omega
          | dec a b =>
              rcases hrest : tlsLoopF fuel rest rest with ⟨it2, ok2, vis2⟩
              have hR := ih rest (by simp [sizeV] at h; omega)
              rw [hrest] at hR
              obtain ⟨r1, r2, r3⟩ := hR
              simp only [] at r1 r2 r3
              subst r1; subst r2
              simp [tlsLoopF, hrest, leavesF, leavesV, r3] <;> omega
          | null =>
              rcases hrest : tlsLoopF fuel rest rest with ⟨it2, ok2, vis2⟩
              have hR := ih rest (by simp [sizeV] at h; omega)
              rw [hrest] at hR
              obtain ⟨r1, r2, r3⟩ := hR
              simp only [] at r1 r2 r3
              subst r1; subst r2
              simp [tlsLoopF, hrest, leavesF, leavesV, r3] <;> omega
          | undef =>
              rcases hrest : tlsLoopF fuel rest rest with ⟨it2, ok2, vis2⟩
              have hR := ih rest (by simp [sizeV] at h; omega)
              rw [hrest] at hR
              obtain ⟨r1, r2, r3⟩ := hR
              simp only [] at r1 r2 r3
              subst r1; subst r2
              simp [tlsLoopF, hrest, leavesF, leavesV, r3] <;> omega
          | arr a =>
              rcases hrest : tlsLoopF fuel rest rest with ⟨it2, ok2, vis2⟩
              have hR := ih rest (by simp [sizeV] at h; omega)
              rw [hrest] at hR
              obtain ⟨r1, r2, r3⟩ := hR
              simp only [] at r1 r2 r3
              subst r1; subst r2
              simp [tlsLoopF, hrest, leavesF, leavesV, r3] <;> omega
          | regex a b =>
              rcases hrest : tlsLoopF fuel rest rest with ⟨it2, ok2, vis2⟩
              have hR := ih rest (by simp [sizeV] at h; omega)
              rw [hrest] at hR
              obtain ⟨r1, r2, r3⟩ := hR
              simp only [] at r1 r2 r3
              subst r1; subst r2
              simp [tlsLoopF, hrest, leavesF, leavesV, r3] <;> omega
          | minKey =>
              rcases hrest : tlsLoopF fuel rest rest with ⟨it2, ok2, vis2⟩
              have hR := ih rest (by simp [sizeV] at h; omega)
              rw [hrest] at hR
              obtain ⟨r1, r2, r3⟩ := hR
              simp only [] at r1 r2 r3
              subst r1; subst r2
              simp [tlsLoopF, hrest, leavesF, leavesV, r3] <;> omega
          | maxKey =>
              rcases hrest : tlsLoopF fuel rest rest with ⟨it2, ok2, vis2⟩
              have hR := ih rest (by simp [sizeV] at h; omega)
              rw [hrest] at hR
              obtain ⟨r1, r2, r3⟩ := hR
              simp only [] at r1 r2 r3
              subst r1; subst r2
              simp [tlsLoopF, hrest, leavesF, leavesV, r3] <;> omega
          | eoo =>
              rcases hrest : tlsLoopF fuel rest rest with ⟨it2, ok2, vis2⟩
              have hR := ih rest (by simp [sizeV] at h; omega)
              rw [hrest] at hR
              obtain ⟨r1, r2, r3⟩ := hR
              simp only [] at r1 r2 r3
              subst r1; subst r2
              simp [tlsLoopF, hrest, leavesF, leavesV, r3] <;> omega

/-- C9: for every BSON object ref, `traverseLockStep(ref, ref)` reports
compatible and invokes the leaf callback exactly once per non-Object leaf
of a pre-order traversal, so the leaf count equals `leaves(ref)`. -/
theorem c9_traverse_self (fs : List Field) :
    (traverseLockStep fs fs).1 = true ∧
    (traverseLockStep fs fs).2.length = leavesF fs := by
  have h := tlsLoopF_self (sizeF fs + 1) fs (by omega)
  unfold traverseLockStep tlsLoop
  rcases ht : tlsLoopF (sizeF fs + 1) fs fs with ⟨it, ok, vis⟩
  rw [ht] at h
  obtain ⟨h1, h2, h3⟩ := h
  simp only [] at h1 h2 h3
  subst h1; subst h2
  simp [h3]

/-- Well-formed bodies concatenate. -/
theorem bodyWF_append {a b : List UInt8} (ha : BodyWF a) (hb : BodyWF b) :
    BodyWF (a ++ b) := by
  induction ha with
  | nil => simpa using hb
  | lit v rest h ih =>
      rw [List.append_assoc]
      exact BodyWF.lit v _ ih
  | run n blocks rest hn hblen h ih =>
      rw [List.cons_append, List.append_assoc]
      exact BodyWF.run n blocks _ hn hblen ih

/-- Reading just past a prefix. -/
theorem getD_at_len (xs : List UInt8) (y : UInt8) (zs : List UInt8) :
    (xs ++ y :: zs).getD xs.length 0 = y := by
  induction xs with
  | nil => rfl
  | cons a as ih => simpa [List.getD] using ih

/-- Writing just past a prefix. -/
theorem set_at_len (xs : List UInt8) (y a : UInt8) (zs : List UInt8) :
    (xs ++ y :: zs).set xs.length a = xs ++ a :: zs := by
  induction xs with
  | nil => rfl
  | cons b bs ih =>
      show b :: (bs ++ y :: zs).set bs.length a = b :: (bs ++ a :: zs)
      rw [ih]

/-- The upper nibble of a control byte `0x80 + n`. -/
theorem ctrl_and_hi (n : Nat) (h : n ≤ 15) :
    UInt8.ofNat (0x80 + n) &&& 0xF0 = 0x80 := by
  interval_cases n <;> decide

/-- The lower nibble of a control byte `0x80 + n`. -/
theorem ctrl_and_lo (n : Nat) (h : n ≤ 15) :
    (UInt8.ofNat (0x80 + n) &&& 0x0F).toNat = n := by
  interval_cases n <;> decide

/-- Bumping the lower nibble of a control byte. -/
theorem ctrl_or_count (n : Nat) (h : n ≤ 14) :
    (0x80 : UInt8) ||| (UInt8.ofNat (n + 1) &&& 0x0F) = UInt8.ofNat (0x80 + (n + 1)) := by
  interval_cases n <;> decide

/-- The block sink preserves the run invariant: it either opens a fresh
run with one block or extends the open run, closing it at 16 blocks. -/
theorem writeBlock_inv (w : Bool) (c : EncCtx) (blk : List Slot)
    (h : EncInv c) : EncInv (writeBlock w c blk) := by
  obtain ⟨hscale, hrest⟩ := h
  have hk : kControlByteForScaleIndex kMemoryAsInteger = 0x80 := rfl
  rcases hrest with ⟨hoff, hwf⟩ | ⟨o, closed, blocks, n, hoff, hwf, hoe, hn, hblen, hbuf⟩
  · unfold writeBlock incrementSimple8bCount
    rw [hoff]
    dsimp only
    simp only [hscale, hk]
    refine ⟨rfl, Or.inr ⟨c.buf.length, c.buf, blockBytes blk, 0, rfl, hwf, rfl,
      by omega, by simp, ?_⟩⟩
    rw [List.append_assoc, List.singleton_append]
    rfl
  · have hn15 : n ≤ 15 := by omega
    unfold writeBlock incrementSimple8bCount
    rw [hoff]
    dsimp only
    simp only [hbuf, hoe, getD_at_len]
    simp only [hscale, hk, set_at_len]
    rw [if_neg (show ¬(UInt8.ofNat (0x80 + n) &&& 0xF0 ≠ (0x80 : UInt8)) from by
      simp [ctrl_and_hi n hn15])]
    simp only [ctrl_and_lo n hn15, ctrl_or_count n hn]
    by_cases h14 : n = 14
    · subst h14
      rw [if_pos (show (14 : Nat) + 1 + 1 = kMaxCount from rfl)]
      dsimp only
      refine ⟨rfl, Or.inl ⟨rfl, ?_⟩⟩
      have h1 : (closed ++ UInt8.ofNat (0x80 + (14 + 1)) :: blocks) ++ blockBytes blk
          = closed ++ UInt8.ofNat (0x80 + (14 + 1)) :: (blocks ++ blockBytes blk) := by
        simp
      rw [h1]
      refine bodyWF_append hwf ?_
      have h2 := BodyWF.run 15 (blocks ++ blockBytes blk) [] (by omega)
        (by simp only [List.length_append, blockBytes_length, hblen]) BodyWF.nil
      rw [List.append_nil] at h2
      exact h2
    · rw [if_neg (show ¬(n + 1 + 1 = kMaxCount) from by simp only [kMaxCount]; omega)]
      dsimp only
      refine ⟨rfl, Or.inr ⟨closed.length, closed, blocks ++ blockBytes blk, n + 1,
        rfl, hwf, rfl, by omega, ?_, ?_⟩⟩
      · simp only [List.length_append, blockBytes_length, hblen]; omega
      · rw [List.append_assoc]
        rfl

/-- Feeding any block sequence through the sink preserves the run
invariant. -/
theorem writeBlocks_inv (w : Bool) (blks : List (List Slot)) :
    ∀ c : EncCtx, EncInv c → EncInv (writeBlocks w c blks) := by
  induction blks with
  | nil => intro c h; exact h
  | cons b bs ih =>
      intro c h
      show EncInv (writeBlocks w (writeBlock w c b) bs)
      exact ih _ (writeBlock_inv w c b h)

/-- Writing a literal closes any open run and keeps the buffer a
well-formed body. -/
theorem writeLit_inv (w : Bool) (c : EncCtx) (h : EncInv c) :
    EncInv (writeLiteralFromPrevious w c) := by
  obtain ⟨hscale, hrest⟩ := h
  have hwfbuf : BodyWF (c.buf ++ litBytes c.st.prev) := by
    rcases hrest with ⟨hoff, hwf⟩ | ⟨o, closed, blocks, n, hoff, hwf, hoe, hn, hblen, hbuf⟩
    · refine bodyWF_append hwf ?_
      have h2 := BodyWF.lit c.st.prev [] BodyWF.nil
      rw [List.append_nil] at h2
      exact h2
    · rw [hbuf, List.append_assoc]
      refine bodyWF_append hwf ?_
      have hlit : BodyWF (litBytes c.st.prev) := by
        have h2 := BodyWF.lit c.st.prev [] BodyWF.nil
        rw [List.append_nil] at h2
        exact h2
      exact BodyWF.run n blocks (litBytes c.st.prev) (by omega) hblen hlit
  unfold writeLiteralFromPrevious
  dsimp only
  constructor
  · show (initFromPrevious _).scaleIndex = kMemoryAsInteger
    rw [(initFromPrevious_fields _).2.1]
  · refine Or.inl ⟨?_, hwfbuf⟩
    show (initFromPrevious _).controlByteOffset = none
    rw [(initFromPrevious_fields _).2.2.2.1]

/-- `skip` preserves the run invariant. -/
theorem encSkip_inv (w : Bool) (c : EncCtx) (h : EncInv c) :
    EncInv (encSkip w c) := by
  unfold encSkip
  repeat' split
  all_goals exact writeBlocks_inv w _ _ h

/-- `flush` preserves the run invariant. -/
theorem encFlush_inv (w : Bool) (c : EncCtx) (h : EncInv c) :
    EncInv (encFlush w c) := by
  unfold encFlush
  exact writeBlocks_inv w _ _ (writeBlocks_inv w _ _ h)

/-- The 128-bit delta stage preserves the run invariant. -/
theorem encAppend128_inv (w : Bool) (c : EncCtx) (v : BVal) (h : EncInv c) :
    EncInv (encAppend128 w c v).2 := by
  unfold encAppend128
  repeat' split
  all_goals try dsimp only
  all_goals first
    | exact h
    | exact writeBlocks_inv w _ _ h

/-- The 64-bit delta stage preserves the run invariant. -/
theorem encAppend64_inv (w : Bool) (c : EncCtx) (v : BVal) (h : EncInv c) :
    EncInv (encAppend64 w c v).2 := by
  unfold encAppend64
  repeat' split
  all_goals try dsimp only
  all_goals first
    | exact h
    | exact writeBlocks_inv w _ _ h

/-- `EncodingState::append` preserves the run invariant. -/
theorem encAppend_inv (w : Bool) (c : EncCtx) (v : BVal) (h : EncInv c) :
    EncInv (encAppend w c v) := by
  have h64 := encAppend64_inv w c v h
  have h128 := encAppend128_inv w c v h
  unfold encAppend
  split
  · refine writeLit_inv w _ ?_
    repeat refine writeBlocks_inv w _ _ ?_
    exact h
  · split
    rename_i compressed c1 heq
    have hc1 : EncInv c1 := by
      split at heq
      · split at heq
        · split at heq
          injection heq with h1 h2
          rw [← h2]
          exact writeBlocks_inv w _ _ h
        · split at heq
          injection heq with h1 h2
          rw [← h2]
          exact writeBlocks_inv w _ _ h
      · split at heq
        · rw [heq] at h128
          exact h128
        · rw [heq] at h64
          exact h64
    try dsimp only
    split
    · exact hc1
    · refine writeLit_inv w _ ?_
      repeat refine writeBlocks_inv w _ _ ?_
      exact hc1

/-- One encoder call preserves the run invariant. -/
theorem runEnc1_inv (w : Bool) (c : EncCtx) (op : EncOp) (h : EncInv c) :
    EncInv (runEnc1 w c op) := by
  cases op with
  | app v => exact encAppend_inv w c v h
  | skp => exact encSkip_inv w c h
  | fl => exact encFlush_inv w c h

/-- Any encoder call sequence preserves the run invariant. -/
theorem runEnc_inv (w : Bool) (ops : List EncOp) :
    ∀ c : EncCtx, EncInv c → EncInv (runEnc w c ops) := by
  induction ops with
  | nil => intro c h; exact h
  | cons op rest ih =>
      intro c h
      exact ih _ (runEnc1_inv w c op h)

/-- A fresh encoder satisfies the run invariant. -/
theorem encInv_init0 : EncInv EncCtx.init0 :=
  ⟨rfl, Or.inl ⟨rfl, BodyWF.nil⟩⟩

/-- C5: after any sequence of encoder calls, every Simple-8b run in the
output has a control byte whose lower nibble plus one equals the number
of 8-byte blocks following it before the next control byte, literal or
the end of the stream (`BodyWF`); and the open run, whose control byte
offset is still recorded, has lower nibble at most 14 with exactly
`8 * (n + 1)` block bytes after its control byte — a run whose nibble
reaches 15 has had its offset cleared, so the next block starts a fresh
run. -/
theorem c5_control_blocks (w : Bool) (ops : List EncOp) :
    ((runEnc w EncCtx.init0 ops).st.controlByteOffset = none →
        BodyWF (runEnc w EncCtx.init0 ops).buf) ∧
    ∀ o : Nat, (runEnc w EncCtx.init0 ops).st.controlByteOffset = some o →
      ∃ closed blocks n, BodyWF closed ∧ o = closed.length ∧ n ≤ 14 ∧
        blocks.length = 8 * (n + 1) ∧
        (runEnc w EncCtx.init0 ops).buf =
          closed ++ UInt8.ofNat (0x80 + n) :: blocks := by
  obtain ⟨hs, hrest⟩ := runEnc_inv w ops EncCtx.init0 encInv_init0
  constructor
  · intro hnone
    rcases hrest with ⟨hoff, hwf⟩ | ⟨o, closed, blocks, n, hoff, hwf, hoe, hn, hblen, hbuf⟩
    · exact hwf
    · rw [hoff] at hnone
      cases hnone
  · intro o hsome
    rcases hrest with ⟨hoff, hwf⟩ | ⟨o2, closed, blocks, n, hoff, hwf, hoe, hn, hblen, hbuf⟩
    · rw [hoff] at hsome
      cases hsome
    · rw [hoff] at hsome
      injection hsome with ho
      exact ⟨closed, blocks, n, hwf, by rw [← ho]; exact hoe, hn, hblen, hbuf⟩

/-- C5 witness: a literal, one pending zero delta and a flush leave an
open run whose single block follows a control byte with lower nibble
zero at offset 6. -/
theorem c5_control_blocks_witness :
    ∃ closed blocks n, BodyWF closed ∧ (6 : Nat) = closed.length ∧ n ≤ 14 ∧
      blocks.length = 8 * (n + 1) ∧
      (runEnc false EncCtx.init0 threeEncOps).buf =
        closed ++ UInt8.ofNat (0x80 + n) :: blocks :=
  (c5_control_blocks false threeEncOps).2 6 (by rfl)

/-- The sink never shrinks the encoder buffer (with slack on the left
for composition). -/
theorem writeBlocks_len (w : Bool) (bls : List (List Slot)) (c : EncCtx) (n : Nat)
    (hn : n ≤ c.buf.length) : n ≤ (writeBlocks w c bls).buf.length :=
  le_trans hn ((writeBlocks_preserve w bls c).2.2.2.2.2.2.2.2)

/-- `skip` never shrinks the encoder buffer. -/
theorem encSkip_len (w : Bool) (c : EncCtx) (n : Nat) (hn : n ≤ c.buf.length) :
    n ≤ (encSkip w c).buf.length := by
  unfold encSkip
  repeat' split
  all_goals exact writeBlocks_len w _ _ _ hn

/-- `flush` never shrinks the encoder buffer. -/
theorem encFlush_len (w : Bool) (c : EncCtx) (n : Nat) (hn : n ≤ c.buf.length) :
    n ≤ (encFlush w c).buf.length := by
  unfold encFlush
  exact writeBlocks_len w _ _ _ (writeBlocks_len w _ _ _ hn)

/-- Writing a literal never shrinks the encoder buffer. -/
theorem writeLit_len (w : Bool) (c : EncCtx) (n : Nat) (hn : n ≤ c.buf.length) :
    n ≤ (writeLiteralFromPrevious w c).buf.length := by
  rw [(writeLiteral_facts w c).2.2.2.2.2.2]
  refine le_trans hn ?_
  simp

/-- The 128-bit delta stage never shrinks the encoder buffer. -/
theorem encAppend128_len (w : Bool) (c : EncCtx) (v : BVal) (n : Nat)
    (hn : n ≤ c.buf.length) : n ≤ ((encAppend128 w c v).2).buf.length := by
  unfold encAppend128
  repeat' split
  all_goals try dsimp only
  all_goals first
    | exact hn
    | exact writeBlocks_len w _ _ _ hn

/-- The 64-bit delta stage never shrinks the encoder buffer. -/
theorem encAppend64_len (w : Bool) (c : EncCtx) (v : BVal) (n : Nat)
    (hn : n ≤ c.buf.length) : n ≤ ((encAppend64 w c v).2).buf.length := by
  unfold encAppend64
  repeat' split
  all_goals try dsimp only
  all_goals first
    | exact hn
    | exact writeBlocks_len w _ _ _ hn

/-- `EncodingState::append` never shrinks the encoder buffer. -/
theorem encAppend_len (w : Bool) (c : EncCtx) (v : BVal) (n : Nat)
    (hn : n ≤ c.buf.length) : n ≤ (encAppend w c v).buf.length := by
  have h64 := encAppend64_len w c v n hn
  have h128 := encAppend128_len w c v n hn
  unfold encAppend
  split
  · exact writeLit_len w _ _ (writeBlocks_len w _ _ _ (writeBlocks_len w _ _ _ hn))
  · split
    rename_i compressed c1 heq
    have hc1 : n ≤ c1.buf.length := by
      split at heq
      · split at heq
        · split at heq
          injection heq with heq1 heq2
          rw [← heq2]
          exact writeBlocks_len w _ _ _ hn
        · split at heq
          injection heq with heq1 heq2
          rw [← heq2]
          exact writeBlocks_len w _ _ _ hn
      · split at heq
        · rw [heq] at h128
          exact h128
        · rw [heq] at h64
          exact h64
    try dsimp only
    split
    · exact hc1
    · exact writeLit_len w _ _ (writeBlocks_len w _ _ _ (writeBlocks_len w _ _ _ hc1))

/-- Interleave flushing only appends and keeps the element count. -/
theorem flushSubObjNoFinish_mono (b : Builder) :
    b.buf.length ≤ (flushSubObjNoFinish b).buf.length ∧
    (flushSubObjNoFinish b).elementCount = b.elementCount := by
  obtain ⟨t, hbuf, _, hec⟩ := flushSubObjNoFinish_buf b
  exact ⟨by rw [hbuf]; simp, hec⟩

/-- `_startDetermineSubObjReference` never shrinks the buffer and keeps
the element count, in both outcomes. -/
theorem startDetermine_mono (b : Builder) (fs : List Field) :
    b.buf.length ≤ (startDetermine b fs).1.buf.length ∧
    (startDetermine b fs).1.elementCount = b.elementCount := by
  unfold startDetermine
  split
  · exact ⟨encFlush_len false _ _ (le_refl _), rfl⟩
  · exact ⟨encFlush_len false _ _ (le_refl _), rfl⟩

/-- `_appendSubElements` never shrinks the buffer and keeps the element
count. -/
theorem appendSubElements_mono (b : Builder) (fs : List Field) :
    b.buf.length ≤ (appendSubElements b fs).1.buf.length ∧
    (appendSubElements b fs).1.elementCount = b.elementCount := by
  unfold appendSubElements
  rcases htr : traverseLockStep b.referenceSubObj fs with ⟨compat, vis⟩
  simp only [htr]
  split
  · exact ⟨le_refl _, rfl⟩
  · split
    · have h1 := flushSubObjNoFinish_mono b
      have h2 := startDetermine_mono (flushSubObjNoFinish b) fs
      exact ⟨le_trans h1.1 h2.1, by rw [h2.2, h1.2]⟩
    · split
      · exact ⟨le_refl _, rfl⟩
      · exact ⟨le_refl _, rfl⟩

/-- The replay loop never shrinks the buffer and keeps the element
count. -/
theorem replayBuffered_mono (objs : List (List Field)) :
    ∀ b : Builder, b.buf.length ≤ (replayBuffered b objs).1.buf.length ∧
      (replayBuffered b objs).1.elementCount = b.elementCount := by
  induction objs with
  | nil => intro b; exact ⟨le_refl _, rfl⟩
  | cons o rest ih =>
      intro b
      unfold replayBuffered
      rcases has : appendSubElements b o with ⟨b2, e⟩
      have h1 := appendSubElements_mono b o
      rw [has] at h1
      cases e with
      | some err =>
          simp only [has]
          exact h1
      | none =>
          simp only [has]
          have h2 := ih b2
          exact ⟨le_trans h1.1 h2.1, by rw [h2.2, h1.2]⟩

/-- `_finishDetermineSubObjReference` never shrinks the buffer and keeps
the element count. -/
theorem finishDetermine_mono (b : Builder) :
    b.buf.length ≤ (finishDetermine b).1.buf.length ∧
    (finishDetermine b).1.elementCount = b.elementCount := by
  unfold finishDetermine
  rcases htr : traverseLockStep b.referenceSubObj (b.bufferedObjElements.headD []) with
    ⟨compat, vis⟩
  simp only [htr]
  split
  · constructor
    · show b.buf.length ≤ (finishSeed b vis).buf.length
      simp [finishSeed]
    · rfl
  · have h2 := replayBuffered_mono b.bufferedObjElements.tail
      { finishSeed b vis with mode := Mode.subObjAppending }
    constructor
    · refine le_trans ?_ h2.1
      show b.buf.length ≤
        ({ finishSeed b vis with mode := Mode.subObjAppending } : Builder).buf.length
      simp [finishSeed]
    · rw [h2.2]
      simp [finishSeed]

/-- `_flushSubObjMode` never shrinks the buffer and keeps the element
count. -/
theorem flushSubObjMode_mono (b : Builder) :
    b.buf.length ≤ (flushSubObjMode b).1.buf.length ∧
    (flushSubObjMode b).1.elementCount = b.elementCount := by
  unfold flushSubObjMode
  split
  · rcases hfd : finishDetermine b with ⟨b2, e⟩
    have h1 := finishDetermine_mono b
    rw [hfd] at h1
    cases e with
    | some err =>
        simp only [hfd]
        exact h1
    | none =>
        simp only [hfd]
        have h2 := flushSubObjNoFinish_mono b2
        exact ⟨le_trans h1.1 h2.1, by rw [h2.2, h1.2]⟩
  · exact flushSubObjNoFinish_mono b

/-- The scalar arm of `append` never shrinks the buffer and, on success,
increments the element count by one. -/
theorem scalarAppend_count (b : Builder) (v : BVal) :
    b.buf.length ≤ (scalarAppend b v).1.buf.length ∧
    ((scalarAppend b v).2 = none →
      (scalarAppend b v).1.elementCount = b.elementCount + 1) := by
  unfold scalarAppend
  rcases hm : (if b.mode != Mode.regular then flushSubObjMode b else (b, none)) with ⟨b2, e⟩
  have hmono : b.buf.length ≤ b2.buf.length ∧ b2.elementCount = b.elementCount := by
    by_cases hcond : (b.mode != Mode.regular) = true
    · rw [if_pos hcond] at hm
      have h2 := flushSubObjMode_mono b
      rw [hm] at h2
      exact h2
    · rw [if_neg hcond] at hm
      injection hm with hm1 hm2
      rw [← hm1]
      exact ⟨le_refl _, rfl⟩
  simp only [hm]
  cases e with
  | some err => exact ⟨hmono.1, fun h => nomatch h⟩
  | none =>
      constructor
      · exact encAppend_len false _ _ _ hmono.1
      · intro h
        show b2.elementCount + 1 = b.elementCount + 1
        rw [hmono.2]

/-- `BSONColumnBuilder::append` never shrinks the buffer and, on
success, increments the element count by one. -/
theorem appendB_facts (b : Builder) (v : BVal) :
    b.buf.length ≤ (appendB b v).1.buf.length ∧
    ((appendB b v).2 = none →
      (appendB b v).1.elementCount = b.elementCount + 1) := by
  unfold appendB
  split
  · exact ⟨le_refl _, fun h => nomatch h⟩
  · split
    all_goals try exact scalarAppend_count b _
    rename_i fs hnm
    split
    · exact scalarAppend_count b _
    · split
      · rcases hsd : startDetermine b fs with ⟨b2, e⟩
        have hm := startDetermine_mono b fs
        rw [hsd] at hm
        cases e with
        | some err =>
            simp only [hsd]
            exact ⟨hm.1, fun h => nomatch h⟩
        | none =>
            simp only [hsd]
            refine ⟨hm.1, fun h => ?_⟩
            show b2.elementCount + 1 = b.elementCount + 1
            rw [hm.2]
      · rcases htr : traverseLockStep b.referenceSubObj fs with ⟨compat, vis⟩
        simp only [htr]
        split
        · exact ⟨le_refl _, fun h => nomatch h⟩
        · split
          · rcases hfm : flushSubObjMode b with ⟨b2, e⟩
            have hm := flushSubObjMode_mono b
            rw [hfm] at hm
            cases e with
            | some err =>
                simp only [hfm]
                exact ⟨hm.1, fun h => nomatch h⟩
            | none =>
                simp only [hfm]
                refine ⟨hm.1, fun h => ?_⟩
                show b2.elementCount + 1 = b.elementCount + 1
                rw [hm.2]
          · rename_i merged heq2
            split
            · exact ⟨le_refl _, fun h => rfl⟩
            · rcases hfd : finishDetermine { b with referenceSubObj := merged } with ⟨b2, e⟩
              have hm2 := finishDetermine_mono { b with referenceSubObj := merged }
              rw [hfd] at hm2
              cases e with
              | some err =>
                  simp only [hfd]
                  exact ⟨hm2.1, fun h => nomatch h⟩
              | none =>
                  simp only [hfd]
                  rcases has : appendSubElements b2 fs with ⟨b3, e2⟩
                  have hm3 := appendSubElements_mono b2 fs
                  rw [has] at hm3
                  cases e2 with
                  | some err =>
                      simp only [has]
                      exact ⟨le_trans hm2.1 hm3.1, fun h => nomatch h⟩
                  | none =>
                      simp only [has]
                      refine ⟨le_trans hm2.1 hm3.1, fun h => ?_⟩
                      show b3.elementCount + 1 = b.elementCount + 1
                      rw [hm3.2, hm2.2]
      · rcases has : appendSubElements b fs with ⟨b2, e⟩
        have hm := appendSubElements_mono b fs
        rw [has] at hm
        cases e with
        | some err =>
            simp only [has]
            exact ⟨hm.1, fun h => nomatch h⟩
        | none =>
            simp only [has]
            refine ⟨hm.1, fun h => ?_⟩
            show b2.elementCount + 1 = b.elementCount + 1
            rw [hm.2]

/-- `BSONColumnBuilder::skip` never shrinks the buffer and always
increments the element count by one. -/
theorem skipB_facts (b : Builder) :
    b.buf.length ≤ (skipB b).buf.length ∧
    (skipB b).elementCount = b.elementCount + 1 := by
  unfold skipB
  dsimp only
  split
  · exact ⟨encSkip_len false _ _ (le_refl _), rfl⟩
  · exact ⟨le_refl _, rfl⟩
  · exact ⟨le_refl _, rfl⟩

/-- A successful call sequence leaves the element count equal to the
number of calls plus the initial count, and never shrinks the buffer. -/
theorem runOps_facts : ∀ (ops : List Op) (b0 b : Builder),
    runOps b0 ops = (b, none) →
    b.elementCount = b0.elementCount + ops.length ∧
    b0.buf.length ≤ b.buf.length := by
  intro ops
  induction ops with
  | nil =>
      intro b0 b h
      unfold runOps at h
      injection h with h1 h2
      subst h1
      exact ⟨by simp, le_refl _⟩
  | cons op rest ih =>
      intro b0 b h
      unfold runOps at h
      rcases hro : runOp b0 op with ⟨b1, e⟩
      rw [hro] at h
      cases e with
      | some err => simp at h
      | none =>
          dsimp only at h
          obtain ⟨hec, hlen⟩ := ih b1 b h
          cases op with
          | app v =>
              have hap := appendB_facts b0 v
              have hro2 : appendB b0 v = (b1, none) := hro
              rw [hro2] at hap
              have he1 := hap.2 rfl
              constructor
              · rw [hec, he1]
                simp only [List.length_cons]
                omega
              · exact le_trans hap.1 hlen
          | skp =>
              have hsk := skipB_facts b0
              have hro2 : (skipB b0, (none : Option BErr)) = (b1, none) := hro
              injection hro2 with hb1 hnn
              rw [← hb1] at hec hlen
              constructor
              · rw [hec, hsk.2]
                simp only [List.length_cons]
                omega
              · exact le_trans hsk.1 hlen

/-- A buffer of length at least four starts with four bytes. -/
theorem exists_four (bs : List UInt8) (h : 4 ≤ bs.length) :
    ∃ a b c d rest, bs = a :: b :: c :: d :: rest := by
  cases bs with
  | nil => exact absurd h (by simp)
  | cons a t1 =>
    cases t1 with
    | nil => exact absurd h (by simp)
    | cons b t2 =>
      cases t2 with
      | nil => exact absurd h (by simp)
      | cons c t3 =>
        cases t3 with
        | nil => exact absurd h (by simp)
        | cons d rest => exact ⟨a, b, c, d, rest, rfl⟩

/-- Patching the element count into a buffer of at least four bytes plus
the EOO byte: the first four bytes become the little-endian count and the
last byte stays the EOO zero. -/
theorem writeHeader_out (a b c d : UInt8) (rest : List UInt8) (n : Nat) :
    (writeHeader ((a :: b :: c :: d :: rest) ++ [0]) n).take 4 = leBytes 4 n ∧
    (writeHeader ((a :: b :: c :: d :: rest) ++ [0]) n).getLast? = some 0 := by
  constructor
  · rfl
  · show ((UInt8.ofNat (n % 256) :: UInt8.ofNat (n / 256 % 256) ::
        UInt8.ofNat (n / 256 / 256 % 256) :: UInt8.ofNat (n / 256 / 256 / 256 % 256) ::
        rest) ++ [0]).getLast? = some (0 : UInt8)
    exact List.getLast?_concat _

/-- C2: after a successful call sequence and a successful `finalize`,
the first four output bytes are the total number of `append` and `skip`
calls as an unsigned 32-bit little-endian integer, and the last output
byte is the 0x00 EOO terminator — whatever mode the builder was in. -/
theorem c2_finalize_header (ops : List Op) (b : Builder) (out : List UInt8)
    (h1 : runOps Builder.init ops = (b, none))
    (h2 : finalizeB b = (out, none)) :
    out.take 4 = leBytes 4 ops.length ∧ out.getLast? = some 0 := by
  obtain ⟨hec, hlen⟩ := runOps_facts ops Builder.init b h1
  have h4 : 4 ≤ b.buf.length := hlen
  have hecn : b.elementCount = ops.length := by
    rw [hec]
    simp [Builder.init]
  unfold finalizeB at h2
  by_cases hmode : (b.mode == Mode.regular) = true
  · rw [if_pos hmode] at h2
    dsimp only at h2
    injection h2 with hout hnn
    obtain ⟨a1, a2, a3, a4, rest, hsp⟩ :=
      exists_four _ (encFlush_len false ⟨b.state, b.buf, []⟩ 4 h4)
    rw [← hout, hsp, ← hecn]
    exact writeHeader_out a1 a2 a3 a4 rest b.elementCount
  · rw [if_neg hmode] at h2
    rcases hfm : flushSubObjMode b with ⟨b2, e⟩
    have hm := flushSubObjMode_mono b
    rw [hfm] at hm
    rw [hfm] at h2
    cases e with
    | some err => simp at h2
    | none =>
        dsimp only at h2
        injection h2 with hout hnn
        obtain ⟨a1, a2, a3, a4, rest, hsp⟩ := exists_four _ (le_trans h4 hm.1)
        rw [← hout, hsp, ← hecn, ← hm.2]
        exact writeHeader_out a1 a2 a3 a4 rest b2.elementCount

/-- C2 witness: one Int32 append and one skip, finalized: the header
counts two elements and the output ends in the EOO byte. -/
theorem c2_finalize_header_witness :
    ((finalizeB (runOps Builder.init [Op.app (BVal.i32 5), Op.skp]).1).1).take 4 =
        leBytes 4 2 ∧
    ((finalizeB (runOps Builder.init [Op.app (BVal.i32 5), Op.skp]).1).1).getLast? =
        some 0 :=
  c2_finalize_header [Op.app (BVal.i32 5), Op.skp] _ _ (by rfl) (by rfl)

end BCol
